import Mathlib

/-!
A shallow embedding of the `cycler` library (`cycler.py`, version 0.10.0).

A `Cycler` is a finite, restartable sequence of records (Python dicts
mapping property names to values).  Leaf cyclers are produced by
`Cycler._from_iter` from one label and a list of values; every composite
cycler holds two child cyclers and the operator stored in `Cycler._op`
(`zip` for `+`/`+=`, `itertools.product` for `*`/`*=`).  Records are
modelled as association lists with string keys; on every cycler reachable
through the library's public API each record has pairwise distinct keys
(proved below), so association-list lookup agrees with Python dict lookup.
-/

namespace CyclerSpec

/-- The composition operator stored in `Cycler._op`: `zip` for `+`,
`itertools.product` for `*`. -/
inductive Op where
  | zip
  | product

/-- The errors the library raises.  `keyOverlap` is the
`ValueError("Can not compose overlapping cycles")` of `_process_keys`;
`lengthMismatch` the `ValueError("Can only add equal length cycles ...")`
of `__add__`; `stopIteration` the `StopIteration` escaping from
`next(iter(...))` in `_process_keys` when a child yields no record;
`typeError` the `TypeError` of `reduce` on an empty sequence;
`keyAlreadyExists` and `keyNotFound` the `ValueError`/`KeyError` of
`change_key`; `keyMismatch` the `ValueError` of `concat`, which reports
the intersection and the symmetric difference of the two key sets. -/
inductive CyclerError where
  | keyOverlap
  | lengthMismatch (la lb : Nat)
  | stopIteration
  | typeError
  | keyAlreadyExists
  | keyNotFound
  | keyMismatch (both onlyOne : Finset String)

/-- One record: a key-to-value dictionary, as an association list. -/
abbrev Record (V : Type) : Type := List (String × V)

variable {V : Type}

/-- Dictionary lookup `r[k]` (first matching pair; records built by the
library have pairwise distinct keys, so this is Python's dict lookup). -/
def rget (r : Record V) (k : String) : Option V :=
  (r.find? (fun p => p.1 == k)).map Prod.snd

/-- Total form of `r[k]`.  Python raises `KeyError` when `k` is absent;
on the records of constructible cyclers every key looked up by the
library is present, so the default is never consulted there. -/
def dget [Inhabited V] (r : Record V) (k : String) : V :=
  (rget r k).getD default

/-- The key set of one record, `set(d.keys())`. -/
def recKeys (r : Record V) : Finset String :=
  (r.map Prod.fst).toFinset

/-- `out = dict(); out.update(a); out.update(b)` of `Cycler._compose`.
With the disjoint keys guaranteed by `_process_keys` this is the
disjoint-union record. -/
def mergeRec (a b : Record V) : Record V := a ++ b

/-- Truthiness of `l_key & r_key` in `_process_keys`: do the key sets of
two records intersect? -/
def keyClash (a b : Record V) : Bool :=
  a.any (fun p => b.any (fun q => p.1 == q.1))

/-- The shape of a `Cycler` object reachable through the public API:
either a base cycler (`_left` a list of single-key records built by
`_from_iter`, `_right = None`, `_op = None`) or a composite
(`_left`/`_right` cyclers, `_op` either `zip` or `product`). -/
inductive Cycler (V : Type) where
  | leaf (label : String) (vals : List V)
  | comp (op : Op) (l r : Cycler V)

/-- The record sequence produced by one full iteration (`__iter__`):
a base cycler yields `{label: v}` per value; a zip composite yields the
merge of index-aligned child records (`zip` truncates to the shorter);
a product composite yields the merges of all pairs, right-fastest
(`itertools.product` order). -/
def Cycler.records : Cycler V → List (Record V)
  | .leaf lab vals => vals.map (fun v => [(lab, v)])
  | .comp .zip l r => List.zipWith mergeRec (Cycler.records l) (Cycler.records r)
  | .comp .product l r =>
      List.flatten ((Cycler.records l).map (fun a => (Cycler.records r).map (fun b => mergeRec a b)))

/-- `__len__`: structural length; `len(_left)` for a base cycler,
`min` for zip composites and `*` for product composites
(`op_dict = {zip: min, product: mul}`). -/
def Cycler.length : Cycler V → Nat
  | .leaf _ vals => vals.length
  | .comp .zip l r => min (Cycler.length l) (Cycler.length r)
  | .comp .product l r => Cycler.length l * Cycler.length r

/-- The labels of the leaves, in tree order.  Python keeps `_keys` as a
set with unspecified iteration order; we fix this canonical order for
the places (`by_key`, `simplify`, `concat`, integer `*`) where the code
iterates over the key set.  On constructible cyclers the list has no
duplicates, so it carries exactly the information of `_keys`. -/
def Cycler.keysList : Cycler V → List String
  | .leaf lab _ => [lab]
  | .comp _ l r => Cycler.keysList l ++ Cycler.keysList r

/-- The key set `Cycler.keys` (`set(self._keys)`). -/
def Cycler.keys (c : Cycler V) : Finset String := c.keysList.toFinset

/-- The cyclers constructible through the public API: every leaf is
constructible (`cycler('a', [])` included), and a composite can only
ever have been built from nonempty children (the construction peek
fails otherwise) whose key sets are disjoint. -/
def Cycler.wf : Cycler V → Prop
  | .leaf _ _ => True
  | .comp _ l r =>
      Cycler.wf l ∧ Cycler.wf r ∧ Cycler.length l ≠ 0 ∧ Cycler.length r ≠ 0 ∧
        ∀ k ∈ Cycler.keysList l, k ∉ Cycler.keysList r

instance Cycler.instDecidableWf : (c : Cycler V) → Decidable c.wf
  | .leaf _ _ => .isTrue trivial
  | .comp _ l r =>
      letI := Cycler.instDecidableWf l
      letI := Cycler.instDecidableWf r
      inferInstanceAs (Decidable (Cycler.wf l ∧ Cycler.wf r ∧ Cycler.length l ≠ 0 ∧
        Cycler.length r ≠ 0 ∧ ∀ k ∈ Cycler.keysList l, k ∉ Cycler.keysList r))

/-- `_process_keys(left, right)` for two cyclers: peek one record from
each side (`next(iter(...))`, raising `StopIteration` on an empty
child), fail with the overlap `ValueError` if the peeked key sets
intersect, and otherwise return their union. -/
def _process_keys (l r : Cycler V) : Except CyclerError (Finset String) :=
  match l.records.head?, r.records.head? with
  | some a, some b =>
      if keyClash a b then .error .keyOverlap else .ok (recKeys a ∪ recKeys b)
  | _, _ => .error .stopIteration

/-- Re-running `Cycler.__init__` on a cycler's own pieces, as the
defensive copy `Cycler(left._left, left._right, left._op)` does: a base
cycler re-peeks its record list (`_process_keys(list, None)`, failing
on an empty list), a composite recursively re-inits both children and
then re-runs `_process_keys` on them. -/
def Cycler.reinit : Cycler V → Except CyclerError Unit
  | .leaf _ vals => if vals.isEmpty then .error .stopIteration else .ok ()
  | .comp _ l r =>
      match Cycler.reinit l with
      | .error e => .error e
      | .ok _ =>
          match Cycler.reinit r with
          | .error e => .error e
          | .ok _ =>
              match _process_keys l r with
              | .error e => .error e
              | .ok _ => .ok ()

/-- `Cycler(self, other, op)`: `__init__` deep-copies (and thereby
re-validates) both children, then runs `_process_keys` on the copies. -/
def mkComposite (op : Op) (l r : Cycler V) : Except CyclerError (Cycler V) :=
  match l.reinit with
  | .error e => .error e
  | .ok _ =>
      match r.reinit with
      | .error e => .error e
      | .ok _ =>
          match _process_keys l r with
          | .error e => .error e
          | .ok _ => .ok (.comp op l r)

/-- `__add__`: the length check comes first, then `Cycler(self, other, zip)`. -/
def combinePairwise (a b : Cycler V) : Except CyclerError (Cycler V) :=
  if a.length = b.length then mkComposite .zip a b
  else .error (.lengthMismatch a.length b.length)

/-- `__mul__` with a `Cycler` argument: `Cycler(self, other, product)`;
no length check. -/
def combineProduct (a b : Cycler V) : Except CyclerError (Cycler V) :=
  mkComposite .product a b

/-- `__iadd__`: `self._keys = _process_keys(old_self, other)` (a plain
shallow copy of `self`, so `self` itself is not re-validated), then
`self._right = Cycler(other._left, other._right, other._op)` which
re-validates `other`; no length check is performed. -/
def augmentPairwise (a b : Cycler V) : Except CyclerError (Cycler V) :=
  match _process_keys a b with
  | .error e => .error e
  | .ok _ =>
      match b.reinit with
      | .error e => .error e
      | .ok _ => .ok (.comp .zip a b)

/-- `__imul__`: same as `__iadd__` with `product` as the operator. -/
def augmentProduct (a b : Cycler V) : Except CyclerError (Cycler V) :=
  match _process_keys a b with
  | .error e => .error e
  | .ok _ =>
      match b.reinit with
      | .error e => .error e
      | .ok _ => .ok (.comp .product a b)

/-- `change_key(old, new)`: no-op when `old == new`; `ValueError` when
`new` is already a key; `KeyError` when `old` is not a key; otherwise
rename, recursing into the right child when it owns `old`, else into
the left child, and rewriting the record list
(`[{new: entry[old]} for entry in self._left]`) at a base cycler. -/
def change_key : Cycler V → String → String → Except CyclerError (Cycler V)
  | c@(.leaf _ vals), old, nw =>
      if old = nw then .ok c
      else if nw ∈ c.keys then .error .keyAlreadyExists
      else if old ∉ c.keys then .error .keyNotFound
      else .ok (.leaf nw vals)
  | c@(.comp op l r), old, nw =>
      if old = nw then .ok c
      else if nw ∈ c.keys then .error .keyAlreadyExists
      else if old ∉ c.keys then .error .keyNotFound
      else if old ∈ r.keys then
        match change_key r old nw with
        | .ok r2 => .ok (.comp op l r2)
        | .error e => .error e
      else
        match change_key l old nw with
        | .ok l2 => .ok (.comp op l2 r)
        | .error e => .error e

/-- `by_key()` restricted to one key: the values `d[k]` of each record
`d` across one full iteration. -/
def by_key [Inhabited V] (c : Cycler V) (k : String) : List V :=
  c.records.map (fun r => dget r k)

/-- The left fold underlying `reduce(add, ...)`: repeated `__add__`. -/
def foldAdd : Cycler V → List (Cycler V) → Except CyclerError (Cycler V)
  | acc, [] => .ok acc
  | acc, x :: xs =>
      match combinePairwise acc x with
      | .ok acc2 => foldAdd acc2 xs
      | .error e => .error e

/-- `reduce(add, xs)`: `TypeError` on an empty sequence, otherwise the
left-nested sum. -/
def reduceAdd : List (Cycler V) → Except CyclerError (Cycler V)
  | [] => .error .typeError
  | x :: xs => foldAdd x xs

/-- `simplify()`: `reduce(add, (_cycler(k, v) for k, v in by_key().items()))`. -/
def simplify [Inhabited V] (c : Cycler V) : Except CyclerError (Cycler V) :=
  reduceAdd (c.keysList.map (fun k => Cycler.leaf k (by_key c k)))

/-- The free function `concat(left, right)`: requires exactly equal key
sets (else a `ValueError` reporting the intersection and the symmetric
difference), then rebuilds `reduce(add, (_cycler(k, _l[k] + _r[k]) for k
in left.keys))`. -/
def concat [Inhabited V] (a b : Cycler V) : Except CyclerError (Cycler V) :=
  if a.keys = b.keys then
    reduceAdd (a.keysList.map (fun k => Cycler.leaf k (by_key a k ++ by_key b k)))
  else
    .error (.keyMismatch (a.keys ∩ b.keys) ((a.keys \ b.keys) ∪ (b.keys \ a.keys)))

/-- Python list repetition `v * n`. -/
def listRepeat (l : List V) (n : Nat) : List V :=
  List.flatten (List.replicate n l)

/-- `__mul__` with an integer argument (`repeat`): decompose via
`by_key`, repeat every per-key value list `n` times, and rebuild with
`reduce(add, (_cycler(k, v*n) ...))`. -/
def repeatC [Inhabited V] (c : Cycler V) (n : Nat) : Except CyclerError (Cycler V) :=
  reduceAdd (c.keysList.map (fun k => Cycler.leaf k (listRepeat (by_key c k) n)))

/-- `x if x is not None else y` on options (dict-update lookup order for
disjoint merges). -/
def optOr {α : Type} (x y : Option α) : Option α :=
  match x with
  | some v => some v
  | none => y

/-- Renaming one key inside a record (`{new: entry[old]}` generalised). -/
def renameRec (old nw : String) (r : Record V) : Record V :=
  r.map (fun p => if p.1 = old then (nw, p.2) else p)

/-- Renaming a key everywhere in the tree; the successful branch of
`change_key` computes exactly this (proved below). -/
def renameAll (old nw : String) : Cycler V → Cycler V
  | .leaf lab vals => .leaf (if lab = old then nw else lab) vals
  | .comp op l r => .comp op (renameAll old nw l) (renameAll old nw r)

/-- Python dict equality of two records: same key set, same value at
every key. -/
def recEq (r s : Record V) : Prop :=
  recKeys r = recKeys s ∧ ∀ k ∈ recKeys r, rget r k = rget s k

instance [DecidableEq V] (r s : Record V) : Decidable (recEq r s) := by
  unfold recEq
  exact inferInstance

/-- `__eq__`: equal lengths, equal key sets (`self.keys ^ other.keys`
empty), and pairwise-equal records in iteration order. -/
def cyclerEq (a b : Cycler V) : Prop :=
  a.length = b.length ∧ a.keys = b.keys ∧ ∀ p ∈ List.zip a.records b.records, recEq p.1 p.2

instance [DecidableEq V] (a b : Cycler V) : Decidable (cyclerEq a b) := by
  unfold cyclerEq
  exact inferInstance

/-! Basic facts about records, keys and lookup. -/

theorem optOr_some {α : Type} (v : α) (y : Option α) : optOr (some v) y = some v := rfl

theorem optOr_none {α : Type} (y : Option α) : optOr (none : Option α) y = y := rfl

theorem rget_append (a b : Record V) (k : String) :
    rget (a ++ b) k = optOr (rget a k) (rget b k) := by
  unfold rget
  rw [List.find?_append]
  cases a.find? (fun p => p.1 == k) <;> simp [optOr, Option.or]

theorem rget_eq_none (r : Record V) (k : String) : rget r k = none ↔ k ∉ recKeys r := by
  induction r with
  | nil => simp [rget, recKeys]
  | cons p t ih =>
      by_cases h : p.1 = k
      · simp [rget, recKeys, List.find?_cons, h]
      · have hb : (p.1 == k) = false := by simpa using h
        simp only [rget, recKeys, List.map_cons, List.toFinset_cons, Finset.mem_insert,
          List.find?_cons, hb, cond_false] at *
        rw [ih]
        constructor
        · intro hk hc
          rcases hc with hc | hc
          · exact h hc.symm
          · exact hk hc
        · intro hk
          exact fun hc => hk (Or.inr hc)

theorem rget_eq_some_dget [Inhabited V] (r : Record V) (k : String) (h : k ∈ recKeys r) :
    rget r k = some (dget r k) := by
  cases hh : rget r k with
  | none => exact absurd h ((rget_eq_none r k).mp hh)
  | some v => simp [dget, hh]

theorem dget_append_left [Inhabited V] (a b : Record V) (k : String) (h : k ∈ recKeys a) :
    dget (a ++ b) k = dget a k := by
  unfold dget
  rw [rget_append, rget_eq_some_dget a k h]
  rfl

theorem dget_append_right [Inhabited V] (a b : Record V) (k : String) (h : k ∉ recKeys a) :
    dget (a ++ b) k = dget b k := by
  unfold dget
  rw [rget_append, (rget_eq_none a k).mpr h]
  rfl

theorem keyClash_eq_false (a b : Record V) :
    keyClash a b = false ↔ ∀ k ∈ recKeys a, k ∉ recKeys b := by
  simp only [keyClash, recKeys, List.mem_toFinset, List.mem_map]
  rw [List.any_eq_false]
  constructor
  · rintro h k ⟨p, hp, rfl⟩ ⟨q, hq, hqk⟩
    apply h p hp
    rw [List.any_eq_true]
    exact ⟨q, hq, by simp [hqk]⟩
  · intro h p hp hany
    rw [List.any_eq_true] at hany
    obtain ⟨q, hq, hbeq⟩ := hany
    rw [beq_iff_eq] at hbeq
    exact h p.1 ⟨p, hp, rfl⟩ ⟨q, hq, hbeq.symm⟩

theorem recKeys_mergeRec (a b : Record V) :
    recKeys (mergeRec a b) = recKeys a ∪ recKeys b := by
  simp [recKeys, mergeRec, List.toFinset_append]

/-! Structural facts about cyclers. -/

theorem keys_leaf (lab : String) (vals : List V) :
    (Cycler.leaf lab vals).keys = {lab} := by
  simp [Cycler.keys, Cycler.keysList]

theorem keys_comp (op : Op) (l r : Cycler V) :
    (Cycler.comp op l r).keys = l.keys ∪ r.keys := by
  simp [Cycler.keys, Cycler.keysList, List.toFinset_append]

theorem mem_keys_iff (c : Cycler V) (k : String) : k ∈ c.keys ↔ k ∈ c.keysList :=
  List.mem_toFinset

theorem keysList_ne_nil (c : Cycler V) : c.keysList ≠ [] := by
  induction c with
  | leaf lab vals => simp [Cycler.keysList]
  | comp op l r ihl ihr => simp [Cycler.keysList, ihl]

theorem keysList_nodup : ∀ c : Cycler V, c.wf → c.keysList.Nodup := by
  intro c
  induction c with
  | leaf lab vals => intro _; simp [Cycler.keysList]
  | comp op l r ihl ihr =>
      rintro ⟨hl, hr, _, _, hd⟩
      exact List.nodup_append.mpr ⟨ihl hl, ihr hr, fun a ha => hd a ha⟩

theorem sum_map_length_const {α β : Type} (as : List α) (f : α → List β) (m : Nat)
    (h : ∀ a ∈ as, (f a).length = m) :
    ((as.map f).map List.length).sum = as.length * m := by
  induction as with
  | nil => simp
  | cons x t ih =>
      have hx := h x (List.mem_cons_self x t)
      have ht := ih (fun a ha => h a (List.mem_cons_of_mem _ ha))
      simp only [List.map_cons, List.sum_cons, hx, ht, List.length_cons, Nat.succ_mul]
      omega

theorem records_length (c : Cycler V) : c.records.length = c.length := by
  induction c with
  | leaf lab vals => simp [Cycler.records, Cycler.length]
  | comp op l r ihl ihr =>
      cases op with
      | zip => simp [Cycler.records, Cycler.length, List.length_zipWith, ihl, ihr]
      | product =>
          simp only [Cycler.records, Cycler.length, List.length_flatten]
          rw [sum_map_length_const l.records _ r.records.length (fun a _ => by simp), ihl, ihr]

theorem records_ne_nil (c : Cycler V) (h : c.length ≠ 0) : c.records ≠ [] := by
  intro hh
  apply h
  rw [← records_length, hh]
  rfl

theorem records_head_some (c : Cycler V) (h : c.length ≠ 0) :
    ∃ a, c.records.head? = some a ∧ a ∈ c.records := by
  cases hr : c.records with
  | nil => exact absurd hr (records_ne_nil c h)
  | cons a t => exact ⟨a, rfl, by simp [hr]⟩

theorem of_mem_zipWith {α β γ : Type} {f : α → β → γ} :
    ∀ {as : List α} {bs : List β} {x : γ}, x ∈ List.zipWith f as bs →
      ∃ a ∈ as, ∃ b ∈ bs, x = f a b := by
  intro as
  induction as with
  | nil => intro bs x h; simp at h
  | cons a t ih =>
      intro bs x h
      cases bs with
      | nil => simp at h
      | cons b u =>
          rw [List.zipWith_cons_cons] at h
          rcases List.mem_cons.mp h with h1 | h2
          · exact ⟨a, List.mem_cons_self a t, b, List.mem_cons_self b u, h1⟩
          · obtain ⟨a2, ha, b2, hb, hx⟩ := ih h2
            exact ⟨a2, List.mem_cons_of_mem _ ha, b2, List.mem_cons_of_mem _ hb, hx⟩

theorem recKeys_records : ∀ c : Cycler V, c.wf → ∀ r ∈ c.records, recKeys r = c.keys := by
  intro c
  induction c with
  | leaf lab vals =>
      intro _ r hr
      simp only [Cycler.records, List.mem_map] at hr
      obtain ⟨v, _, rfl⟩ := hr
      simp [recKeys, keys_leaf]
  | comp op l r ihl ihr =>
      rintro ⟨hl, hr, _, _, _⟩ s hs
      cases op with
      | zip =>
          simp only [Cycler.records] at hs
          obtain ⟨a, ha, b, hb, rfl⟩ := of_mem_zipWith hs
          rw [recKeys_mergeRec, ihl hl a ha, ihr hr b hb, keys_comp]
      | product =>
          simp only [Cycler.records, List.mem_flatten, List.mem_map] at hs
          obtain ⟨t, ⟨a, ha, rfl⟩, hst⟩ := hs
          obtain ⟨b, hb, rfl⟩ := List.mem_map.mp hst
          rw [recKeys_mergeRec, ihl hl a ha, ihr hr b hb, keys_comp]

theorem records_nodupKeys : ∀ c : Cycler V, c.wf → ∀ r ∈ c.records, (r.map Prod.fst).Nodup := by
  intro c
  induction c with
  | leaf lab vals =>
      intro _ r hr
      simp only [Cycler.records, List.mem_map] at hr
      obtain ⟨v, _, rfl⟩ := hr
      simp
  | comp op l r ihl ihr =>
      rintro ⟨hl, hr, _, _, hd⟩ s hs
      have key_disj : ∀ a ∈ l.records, ∀ b ∈ r.records,
          List.Disjoint (a.map Prod.fst) (b.map Prod.fst) := by
        intro a ha b hb k hka hkb
        have h1 : k ∈ l.keys := by
          rw [← recKeys_records l hl a ha]
          exact List.mem_toFinset.mpr hka
        have h2 : k ∈ r.keys := by
          rw [← recKeys_records r hr b hb]
          exact List.mem_toFinset.mpr hkb
        exact hd k ((mem_keys_iff l k).mp h1) ((mem_keys_iff r k).mp h2)
      cases op with
      | zip =>
          simp only [Cycler.records] at hs
          obtain ⟨a, ha, b, hb, rfl⟩ := of_mem_zipWith hs
          rw [mergeRec, List.map_append]
          exact List.nodup_append.mpr ⟨ihl hl a ha, ihr hr b hb, key_disj a ha b hb⟩
      | product =>
          simp only [Cycler.records, List.mem_flatten, List.mem_map] at hs
          obtain ⟨t, ⟨a, ha, rfl⟩, hst⟩ := hs
          obtain ⟨b, hb, rfl⟩ := List.mem_map.mp hst
          rw [mergeRec, List.map_append]
          exact List.nodup_append.mpr ⟨ihl hl a ha, ihr hr b hb, key_disj a ha b hb⟩

/-! Construction-time validation: `reinit`, `_process_keys`, `mkComposite`. -/

theorem mem_of_head?_eq {α : Type} {l : List α} {a : α} (h : l.head? = some a) : a ∈ l := by
  cases l with
  | nil => cases h
  | cons x t =>
      simp only [List.head?_cons, Option.some.injEq] at h
      rw [← h]
      exact List.mem_cons_self x t

theorem length_ne_zero_of_head (c : Cycler V) (a : Record V) (h : c.records.head? = some a) :
    c.length ≠ 0 := by
  intro hz
  have hlen := records_length c
  rw [hz] at hlen
  rw [List.length_eq_zero.mp hlen] at h
  cases h

theorem _process_keys_ok (l r : Cycler V) (hl : l.wf) (hr : r.wf)
    (hnl : l.length ≠ 0) (hnr : r.length ≠ 0)
    (hd : ∀ k ∈ l.keysList, k ∉ r.keysList) :
    _process_keys l r = Except.ok (l.keys ∪ r.keys) := by
  obtain ⟨a, ha, hamem⟩ := records_head_some l hnl
  obtain ⟨b, hb, hbmem⟩ := records_head_some r hnr
  have hka := recKeys_records l hl a hamem
  have hkb := recKeys_records r hr b hbmem
  have hclash : keyClash a b = false := by
    rw [keyClash_eq_false]
    intro k hk1 hk2
    rw [hka] at hk1
    rw [hkb] at hk2
    exact hd k ((mem_keys_iff l k).mp hk1) ((mem_keys_iff r k).mp hk2)
  simp [_process_keys, ha, hb, hclash, hka, hkb]

theorem _process_keys_overlap (l r : Cycler V) (hl : l.wf) (hr : r.wf)
    (hnl : l.length ≠ 0) (hnr : r.length ≠ 0)
    (k : String) (hk1 : k ∈ l.keysList) (hk2 : k ∈ r.keysList) :
    _process_keys l r = Except.error CyclerError.keyOverlap := by
  obtain ⟨a, ha, hamem⟩ := records_head_some l hnl
  obtain ⟨b, hb, hbmem⟩ := records_head_some r hnr
  have hka := recKeys_records l hl a hamem
  have hkb := recKeys_records r hr b hbmem
  have hclash : keyClash a b = true := by
    by_contra hc
    rw [Bool.not_eq_true] at hc
    exact (keyClash_eq_false a b).mp hc k
      (by rw [hka]; exact (mem_keys_iff l k).mpr hk1)
      (by rw [hkb]; exact (mem_keys_iff r k).mpr hk2)
  simp [_process_keys, ha, hb, hclash]

theorem _process_keys_emptyL (l r : Cycler V) (h : l.length = 0) :
    _process_keys l r = Except.error CyclerError.stopIteration := by
  have hlen := records_length l
  rw [h] at hlen
  have hnil : l.records = [] := List.length_eq_zero.mp hlen
  cases hb : r.records.head? with
  | none => simp [_process_keys, hnil, hb]
  | some b => simp [_process_keys, hnil, hb]

theorem _process_keys_ok_inv (l r : Cycler V) (hl : l.wf) (hr : r.wf) {ks : Finset String}
    (h : _process_keys l r = Except.ok ks) :
    l.length ≠ 0 ∧ r.length ≠ 0 ∧ (∀ k ∈ l.keysList, k ∉ r.keysList) := by
  cases ha : l.records.head? with
  | none => simp [_process_keys, ha] at h
  | some a =>
      cases hb : r.records.head? with
      | none => simp [_process_keys, ha, hb] at h
      | some b =>
          cases hc : keyClash a b with
          | true => simp [_process_keys, ha, hb, hc] at h
          | false =>
              have hka := recKeys_records l hl a (mem_of_head?_eq ha)
              have hkb := recKeys_records r hr b (mem_of_head?_eq hb)
              refine ⟨length_ne_zero_of_head l a ha, length_ne_zero_of_head r b hb, ?_⟩
              intro k hk1 hk2
              exact (keyClash_eq_false a b).mp hc k
                (by rw [hka]; exact (mem_keys_iff l k).mpr hk1)
                (by rw [hkb]; exact (mem_keys_iff r k).mpr hk2)

theorem reinit_ok_iff : ∀ c : Cycler V, c.reinit = Except.ok () ↔ (c.wf ∧ c.length ≠ 0) := by
  intro c
  induction c with
  | leaf lab vals => cases vals <;> simp [Cycler.reinit, Cycler.length, Cycler.wf]
  | comp op l r ihl ihr =>
      constructor
      · intro h
        cases h1 : l.reinit with
        | error e => simp [Cycler.reinit, h1] at h
        | ok u =>
            cases u
            cases h2 : r.reinit with
            | error e => simp [Cycler.reinit, h1, h2] at h
            | ok u =>
                cases u
                cases h3 : _process_keys l r with
                | error e => simp [Cycler.reinit, h1, h2, h3] at h
                | ok ks =>
                    obtain ⟨hwl, hnl⟩ := (ihl).mp h1
                    obtain ⟨hwr, hnr⟩ := (ihr).mp h2
                    obtain ⟨_, _, hd⟩ := _process_keys_ok_inv l r hwl hwr h3
                    refine ⟨⟨hwl, hwr, hnl, hnr, hd⟩, ?_⟩
                    cases op with
                    | zip => simp only [Cycler.length]; omega
                    | product => exact Nat.mul_ne_zero hnl hnr
      · rintro ⟨⟨hwl, hwr, hnl, hnr, hd⟩, _⟩
        have h1 : l.reinit = Except.ok () := ihl.mpr ⟨hwl, hnl⟩
        have h2 : r.reinit = Except.ok () := ihr.mpr ⟨hwr, hnr⟩
        have h3 := _process_keys_ok l r hwl hwr hnl hnr hd
        simp [Cycler.reinit, h1, h2, h3]

theorem comp_length_ne_zero (op : Op) (l r : Cycler V)
    (hnl : l.length ≠ 0) (hnr : r.length ≠ 0) :
    (Cycler.comp op l r).length ≠ 0 := by
  cases op with
  | zip => simp only [Cycler.length]; omega
  | product => exact Nat.mul_ne_zero hnl hnr

theorem mkComposite_ok (op : Op) (l r : Cycler V) (hl : l.wf) (hr : r.wf)
    (hnl : l.length ≠ 0) (hnr : r.length ≠ 0)
    (hd : ∀ k ∈ l.keysList, k ∉ r.keysList) :
    mkComposite op l r = Except.ok (Cycler.comp op l r) := by
  have h1 : l.reinit = Except.ok () := (reinit_ok_iff l).mpr ⟨hl, hnl⟩
  have h2 : r.reinit = Except.ok () := (reinit_ok_iff r).mpr ⟨hr, hnr⟩
  have h3 := _process_keys_ok l r hl hr hnl hnr hd
  simp [mkComposite, h1, h2, h3]

theorem mkComposite_ok_inv (op : Op) (l r : Cycler V) {c : Cycler V}
    (h : mkComposite op l r = Except.ok c) :
    c = Cycler.comp op l r ∧ (Cycler.comp op l r).wf ∧ (Cycler.comp op l r).length ≠ 0 := by
  cases h1 : l.reinit with
  | error e => simp [mkComposite, h1] at h
  | ok u =>
      cases u
      cases h2 : r.reinit with
      | error e => simp [mkComposite, h1, h2] at h
      | ok u =>
          cases u
          cases h3 : _process_keys l r with
          | error e => simp [mkComposite, h1, h2, h3] at h
          | ok ks =>
              simp only [mkComposite, h1, h2, h3] at h
              obtain ⟨hwl, hnl⟩ := (reinit_ok_iff l).mp h1
              obtain ⟨hwr, hnr⟩ := (reinit_ok_iff r).mp h2
              obtain ⟨_, _, hd⟩ := _process_keys_ok_inv l r hwl hwr h3
              have hc : c = Cycler.comp op l r := by
                cases h
                rfl
              exact ⟨hc, ⟨hwl, hwr, hnl, hnr, hd⟩, comp_length_ne_zero op l r hnl hnr⟩

theorem mkComposite_overlap (op : Op) (l r : Cycler V) (hl : l.wf) (hr : r.wf)
    (hnl : l.length ≠ 0) (hnr : r.length ≠ 0) (k : String)
    (hk1 : k ∈ l.keysList) (hk2 : k ∈ r.keysList) :
    mkComposite op l r = Except.error CyclerError.keyOverlap := by
  have h1 : l.reinit = Except.ok () := (reinit_ok_iff l).mpr ⟨hl, hnl⟩
  have h2 : r.reinit = Except.ok () := (reinit_ok_iff r).mpr ⟨hr, hnr⟩
  have h3 := _process_keys_overlap l r hl hr hnl hnr k hk1 hk2
  simp [mkComposite, h1, h2, h3]

/-! List indexing and `zipWith` helpers. -/

theorem getq_zipWith {α β γ : Type} {f : α → β → γ} {as : List α} {bs : List β}
    {i : Nat} {a : α} {b : β} (ha : as[i]? = some a) (hb : bs[i]? = some b) :
    (List.zipWith f as bs)[i]? = some (f a b) := by
  simp [List.getElem?_zipWith, ha, hb]

theorem getq_flatten_uniform {α : Type} :
    ∀ (bs : List (List α)) (m : Nat), (∀ b ∈ bs, b.length = m) →
      ∀ (i j : Nat), j < m → ∀ {blk : List α}, bs[i]? = some blk →
        (List.flatten bs)[i * m + j]? = blk[j]? := by
  intro bs
  induction bs with
  | nil => intro m _ i j _ blk hi; simp at hi
  | cons b t ih =>
      intro m hm i j hj blk hi
      have hbl : b.length = m := hm b (List.mem_cons_self b t)
      cases i with
      | zero =>
          simp only [List.getElem?_cons_zero, Option.some.injEq] at hi
          rw [← hi, List.flatten_cons, Nat.zero_mul, Nat.zero_add, List.getElem?_append,
            if_pos (by rw [hbl]; exact hj)]
      | succ i =>
          simp only [List.getElem?_cons_succ] at hi
          rw [List.flatten_cons, List.getElem?_append,
            if_neg (by rw [hbl, Nat.succ_mul]; omega), hbl]
          have harith : (i + 1) * m + j - m = i * m + j := by rw [Nat.succ_mul]; omega
          rw [harith]
          exact ih m (fun x hx => hm x (List.mem_cons_of_mem _ hx)) i j hj hi

theorem zipWith_left_map {α β γ : Type} (h : α → γ) :
    ∀ (as : List α) (bs : List β), as.length = bs.length →
      List.zipWith (fun a _ => h a) as bs = as.map h := by
  intro as
  induction as with
  | nil => intro bs _; simp
  | cons a t ih =>
      intro bs hb
      cases bs with
      | nil => simp at hb
      | cons b u =>
          simp only [List.zipWith_cons_cons, List.map_cons, List.cons.injEq, true_and]
          exact ih u (by simpa using hb)

theorem zipWith_right_map {α β γ : Type} (h : β → γ) :
    ∀ (as : List α) (bs : List β), as.length = bs.length →
      List.zipWith (fun _ b => h b) as bs = bs.map h := by
  intro as
  induction as with
  | nil =>
      intro bs hb
      cases bs with
      | nil => simp
      | cons b u => simp at hb
  | cons a t ih =>
      intro bs hb
      cases bs with
      | nil => simp at hb
      | cons b u =>
          simp only [List.zipWith_cons_cons, List.map_cons, List.cons.injEq, true_and]
          exact ih u (by simpa using hb)

theorem zipWith_congr_mem {α β γ : Type} (f g : α → β → γ) :
    ∀ (as : List α) (bs : List β), (∀ a ∈ as, ∀ b ∈ bs, f a b = g a b) →
      List.zipWith f as bs = List.zipWith g as bs := by
  intro as
  induction as with
  | nil => intro bs _; simp
  | cons a t ih =>
      intro bs h
      cases bs with
      | nil => simp
      | cons b u =>
          simp only [List.zipWith_cons_cons, List.cons.injEq]
          refine ⟨h a (List.mem_cons_self a t) b (List.mem_cons_self b u), ?_⟩
          exact ih u (fun x hx y hy =>
            h x (List.mem_cons_of_mem _ hx) y (List.mem_cons_of_mem _ hy))

/-! Facts about `by_key`. -/

theorem optOr_none_right {α : Type} (x : Option α) : optOr x none = x := by
  cases x <;> rfl

theorem rget_single_ne (k k2 : String) (x : V) (h : k2 ≠ k) : rget [(k, x)] k2 = none := by
  have : (k == k2) = false := by simpa using fun hh => h hh.symm
  simp [rget, List.find?, this]

theorem dget_pair_self [Inhabited V] (k : String) (x : V) : dget [(k, x)] k = x := by
  simp [dget, rget, List.find?]

theorem dget_append_pair_ne [Inhabited V] (a : Record V) (k k2 : String) (x : V) (h : k2 ≠ k) :
    dget (a ++ [(k, x)]) k2 = dget a k2 := by
  unfold dget
  rw [rget_append, rget_single_ne k k2 x h, optOr_none_right]

theorem by_key_length [Inhabited V] (c : Cycler V) (k : String) :
    (by_key c k).length = c.length := by
  simp [by_key, records_length]

theorem by_key_leaf_self [Inhabited V] (lab : String) (vals : List V) :
    by_key (Cycler.leaf lab vals) lab = vals := by
  have hv : ∀ v : V, dget [(lab, v)] lab = v := fun v => dget_pair_self lab v
  simp only [by_key, Cycler.records, List.map_map, Function.comp]
  calc vals.map (fun v => dget [(lab, v)] lab) = vals.map (fun v => v) := by
        exact List.map_congr_left (fun v _ => hv v)
    _ = vals := List.map_id' vals

theorem by_key_zip_leaf [Inhabited V] (acc : Cycler V) (hwf : acc.wf) (k : String) (v : List V)
    (hk : k ∉ acc.keysList) (hlen : v.length = acc.records.length) :
    by_key (Cycler.comp Op.zip acc (Cycler.leaf k v)) k = v ∧
    ∀ k2, k2 ≠ k → by_key (Cycler.comp Op.zip acc (Cycler.leaf k v)) k2 = by_key acc k2 := by
  have hrecs : (Cycler.comp Op.zip acc (Cycler.leaf k v)).records
      = List.zipWith mergeRec acc.records (v.map (fun x => [(k, x)])) := rfl
  have hknot : ∀ a ∈ acc.records, k ∉ recKeys a := by
    intro a ha hmem
    rw [recKeys_records acc hwf a ha] at hmem
    exact hk ((mem_keys_iff acc k).mp hmem)
  constructor
  · rw [by_key, hrecs, List.map_zipWith]
    rw [zipWith_congr_mem _ (fun _ b => dget b k) _ _ ?hcong]
    case hcong =>
      intro a ha b _
      exact dget_append_right a b k (hknot a ha)
    rw [zipWith_right_map _ _ _ (by simpa using hlen.symm)]
    have hv : ∀ x : V, dget [(k, x)] k = x := fun x => dget_pair_self k x
    simp only [List.map_map, Function.comp]
    calc v.map (fun x => dget [(k, x)] k) = v.map (fun x => x) := by
          exact List.map_congr_left (fun x _ => hv x)
      _ = v := List.map_id' v
  · intro k2 hk2
    rw [by_key, hrecs, List.map_zipWith]
    rw [zipWith_congr_mem _ (fun a _ => dget a k2) _ _ ?hcong2]
    case hcong2 =>
      intro a _ b hb
      obtain ⟨x, _, rfl⟩ := List.mem_map.mp hb
      exact dget_append_pair_ne a k k2 x hk2
    rw [zipWith_left_map _ _ _ (by simpa using hlen.symm)]
    rfl

/-! The `reduce(add, ...)` rebuild used by `simplify`, `concat` and integer `*`. -/

theorem foldAdd_spec [Inhabited V] (n : Nat) :
    ∀ (ks : List String) (f : String → List V) (acc : Cycler V),
      acc.wf → acc.length = n → (∀ k ∈ ks, (f k).length = n) →
      (∀ k ∈ ks, k ∉ acc.keysList) → ks.Nodup → (n ≠ 0 ∨ ks = []) →
      ∃ d, foldAdd acc (ks.map (fun k => Cycler.leaf k (f k))) = Except.ok d ∧
        d.wf ∧ d.length = n ∧ d.keysList = acc.keysList ++ ks ∧
        (∀ k, k ∉ ks → by_key d k = by_key acc k) ∧
        (∀ k ∈ ks, by_key d k = f k) := by
  intro ks
  induction ks with
  | nil =>
      intro f acc hwf hlen _ _ _ _
      exact ⟨acc, rfl, hwf, hlen, by simp, fun k _ => rfl, by simp⟩
  | cons k ks ih =>
      intro f acc hwf hlen hflen hnotin hnodup hn
      have hnz : n ≠ 0 := by
        rcases hn with h | h
        · exact h
        · cases h
      have hkacc : k ∉ acc.keysList := hnotin k (List.mem_cons_self k ks)
      have hfk : (f k).length = n := hflen k (List.mem_cons_self k ks)
      have hleafwf : (Cycler.leaf k (f k)).wf := trivial
      have hleaflen : (Cycler.leaf k (f k)).length = n := hfk
      have hdisj : ∀ k2 ∈ acc.keysList, k2 ∉ (Cycler.leaf k (f k)).keysList := by
        intro k2 hk2 hmem
        simp only [Cycler.keysList, List.mem_singleton] at hmem
        rw [hmem] at hk2
        exact hkacc hk2
      have hmk := mkComposite_ok Op.zip acc (Cycler.leaf k (f k)) hwf hleafwf
        (by rw [hlen]; exact hnz) (by rw [hleaflen]; exact hnz) hdisj
      have hcp : combinePairwise acc (Cycler.leaf k (f k))
          = Except.ok (Cycler.comp Op.zip acc (Cycler.leaf k (f k))) := by
        unfold combinePairwise
        rw [if_pos (by rw [hlen, hleaflen]), hmk]
      have hwf2 : (Cycler.comp Op.zip acc (Cycler.leaf k (f k))).wf :=
        ⟨hwf, hleafwf, by rw [hlen]; exact hnz, by rw [hleaflen]; exact hnz, hdisj⟩
      have hlen2 : (Cycler.comp Op.zip acc (Cycler.leaf k (f k))).length = n := by
        simp only [Cycler.length, hlen, hfk, Nat.min_self]
      have hby := by_key_zip_leaf acc hwf k (f k) hkacc (by rw [hfk, records_length, hlen])
      have hkeys2 : (Cycler.comp Op.zip acc (Cycler.leaf k (f k))).keysList
          = acc.keysList ++ [k] := rfl
      obtain ⟨d, hfold, hwfd, hlend, hkeysd, hun, htr⟩ :=
        ih f (Cycler.comp Op.zip acc (Cycler.leaf k (f k))) hwf2 hlen2
          (fun k2 hk2 => hflen k2 (List.mem_cons_of_mem _ hk2))
          (fun k2 hk2 => by
            rw [hkeys2]
            simp only [List.mem_append, List.mem_singleton]
            rintro (hc | hc)
            · exact hnotin k2 (List.mem_cons_of_mem _ hk2) hc
            · rw [hc] at hk2
              exact (List.nodup_cons.mp hnodup).1 hk2)
          (List.nodup_cons.mp hnodup).2 (Or.inl hnz)
      refine ⟨d, ?_, hwfd, hlend, ?_, ?_, ?_⟩
      · simp only [List.map_cons, foldAdd, hcp]
        exact hfold
      · rw [hkeysd, hkeys2, List.append_assoc, List.singleton_append]
      · intro k2 hk2
        have hne : k2 ≠ k := fun hc => hk2 (hc ▸ List.mem_cons_self k ks)
        have hnks : k2 ∉ ks := fun hc => hk2 (List.mem_cons_of_mem _ hc)
        rw [hun k2 hnks]
        exact hby.2 k2 hne
      · intro k2 hk2
        rcases List.mem_cons.mp hk2 with hc | hc
        · subst hc
          rw [hun k2 (List.nodup_cons.mp hnodup).1]
          exact hby.1
        · exact htr k2 hc

theorem reduceAdd_spec [Inhabited V] (ks : List String) (f : String → List V) (n : Nat)
    (hne : ks ≠ []) (hnodup : ks.Nodup) (hflen : ∀ k ∈ ks, (f k).length = n)
    (hn : n ≠ 0 ∨ ks.length = 1) :
    ∃ d, reduceAdd (ks.map (fun k => Cycler.leaf k (f k))) = Except.ok d ∧
      d.wf ∧ d.length = n ∧ d.keysList = ks ∧ (∀ k ∈ ks, by_key d k = f k) := by
  cases ks with
  | nil => exact absurd rfl hne
  | cons k ks =>
      have hfk : (f k).length = n := hflen k (List.mem_cons_self k ks)
      have hn2 : n ≠ 0 ∨ ks = [] := by
        rcases hn with h | h
        · exact Or.inl h
        · right
          simpa [List.length_eq_zero] using h
      obtain ⟨d, hfold, hwfd, hlend, hkeysd, hun, htr⟩ :=
        foldAdd_spec n ks f (Cycler.leaf k (f k)) trivial hfk
          (fun k2 hk2 => hflen k2 (List.mem_cons_of_mem _ hk2))
          (fun k2 hk2 => by
            simp only [Cycler.keysList, List.mem_singleton]
            intro hc
            rw [hc] at hk2
            exact (List.nodup_cons.mp hnodup).1 hk2)
          (List.nodup_cons.mp hnodup).2 hn2
      refine ⟨d, ?_, hwfd, hlend, ?_, ?_⟩
      · simp only [List.map_cons, reduceAdd]
        exact hfold
      · rw [hkeysd]
        rfl
      · intro k2 hk2
        rcases List.mem_cons.mp hk2 with hc | hc
        · subst hc
          rw [hun k2 (List.nodup_cons.mp hnodup).1]
          exact by_key_leaf_self k2 (f k2)
        · exact htr k2 hc

/-! Pointwise record equality from `by_key` equality. -/

theorem mem_of_getq {α : Type} {l : List α} {i : Nat} {x : α} (h : l[i]? = some x) : x ∈ l := by
  obtain ⟨hlt, he⟩ := List.getElem?_eq_some.mp h
  rw [← he]
  exact List.getElem_mem hlt

theorem mem_zip_getq {α β : Type} :
    ∀ {as : List α} {bs : List β} {p : α × β}, p ∈ List.zip as bs →
      ∃ (i : Nat) (a : α) (b : β), as[i]? = some a ∧ bs[i]? = some b ∧ p = (a, b) := by
  intro as
  induction as with
  | nil => intro bs p h; simp [List.zip] at h
  | cons a t ih =>
      intro bs p h
      cases bs with
      | nil => simp [List.zip] at h
      | cons b u =>
          rw [List.zip_cons_cons] at h
          rcases List.mem_cons.mp h with h1 | h2
          · exact ⟨0, a, b, by simp, by simp, h1⟩
          · obtain ⟨i, a2, b2, ha, hb, hp⟩ := ih h2
            exact ⟨i + 1, a2, b2, by simpa using ha, by simpa using hb, hp⟩

theorem cyclerEq_refl (c : Cycler V) : cyclerEq c c := by
  refine ⟨rfl, rfl, ?_⟩
  intro p hp
  obtain ⟨i, a, b, ha, hb, rfl⟩ := mem_zip_getq hp
  have hab : a = b := Option.some.inj (ha.symm.trans hb)
  subst hab
  exact ⟨rfl, fun _ _ => rfl⟩

theorem cyclerEq_of_by_key [Inhabited V] (a b : Cycler V)
    (hlen : a.length = b.length) (hkeys : a.keys = b.keys)
    (ha : ∀ r ∈ a.records, recKeys r = a.keys)
    (hb : ∀ r ∈ b.records, recKeys r = b.keys)
    (hby : ∀ k ∈ a.keys, by_key a k = by_key b k) :
    cyclerEq a b := by
  refine ⟨hlen, hkeys, ?_⟩
  intro p hp
  obtain ⟨i, ra, rb, hra, hrb, rfl⟩ := mem_zip_getq hp
  have hka := ha ra (mem_of_getq hra)
  have hkb := hb rb (mem_of_getq hrb)
  refine ⟨by rw [hka, hkb, hkeys], ?_⟩
  intro k hk
  have hk1 : k ∈ a.keys := by rw [← hka]; exact hk
  have hk2 : k ∈ recKeys rb := by rw [hkb, ← hkeys]; exact hk1
  have h1 : (by_key a k)[i]? = some (dget ra k) := by
    rw [by_key, List.getElem?_map, hra]
    rfl
  have h2 : (by_key b k)[i]? = some (dget rb k) := by
    rw [by_key, List.getElem?_map, hrb]
    rfl
  have hdg : dget ra k = dget rb k := by
    rw [hby k hk1] at h1
    exact Option.some.inj (h1.symm.trans h2)
  rw [rget_eq_some_dget ra k hk, rget_eq_some_dget rb k hk2, hdg]

/-! Facts about `change_key` and renaming. -/

theorem renameRec_merge (old nw : String) (a b : Record V) :
    renameRec old nw (mergeRec a b) = mergeRec (renameRec old nw a) (renameRec old nw b) := by
  simp [renameRec, mergeRec]

theorem records_renameAll (old nw : String) :
    ∀ c : Cycler V, (renameAll old nw c).records = c.records.map (renameRec old nw) := by
  intro c
  induction c with
  | leaf lab vals =>
      by_cases h : lab = old <;>
        simp [renameAll, renameRec, Cycler.records, h, List.map_map, Function.comp]
  | comp op l r ihl ihr =>
      cases op with
      | zip =>
          simp only [renameAll, Cycler.records, ihl, ihr, List.zipWith_map, List.map_zipWith]
          exact zipWith_congr_mem _ _ _ _ (fun a _ b _ => (renameRec_merge old nw a b).symm)
      | product =>
          simp only [renameAll, Cycler.records, ihl, ihr, List.map_flatten, List.map_map]
          congr 1
          apply List.map_congr_left
          intro a _
          simp only [Function.comp, List.map_map]
          apply List.map_congr_left
          intro b _
          exact (renameRec_merge old nw a b).symm

theorem length_renameAll (old nw : String) :
    ∀ c : Cycler V, (renameAll old nw c).length = c.length := by
  intro c
  induction c with
  | leaf lab vals => by_cases h : lab = old <;> simp [renameAll, Cycler.length, h]
  | comp op l r ihl ihr => cases op <;> simp [renameAll, Cycler.length, ihl, ihr]

theorem keysList_renameAll (old nw : String) :
    ∀ c : Cycler V,
      (renameAll old nw c).keysList = c.keysList.map (fun x => if x = old then nw else x) := by
  intro c
  induction c with
  | leaf lab vals => simp [renameAll, Cycler.keysList]
  | comp op l r ihl ihr => simp [renameAll, Cycler.keysList, ihl, ihr]

theorem renameAll_id (old nw : String) :
    ∀ c : Cycler V, old ∉ c.keysList → renameAll old nw c = c := by
  intro c
  induction c with
  | leaf lab vals =>
      intro h
      simp only [Cycler.keysList, List.mem_singleton] at h
      simp only [renameAll, if_neg (Ne.symm h)]
  | comp op l r ihl ihr =>
      intro h
      simp only [Cycler.keysList, List.mem_append] at h
      push_neg at h
      simp [renameAll, ihl h.1, ihr h.2]

theorem wf_renameAll (old nw : String) :
    ∀ c : Cycler V, c.wf → nw ∉ c.keysList → (renameAll old nw c).wf := by
  intro c
  induction c with
  | leaf lab vals => intro _ _; exact trivial
  | comp op l r ihl ihr =>
      rintro ⟨hl, hr, hnl, hnr, hd⟩ hnw
      simp only [Cycler.keysList, List.mem_append] at hnw
      push_neg at hnw
      refine ⟨ihl hl hnw.1, ihr hr hnw.2, ?_, ?_, ?_⟩
      · rw [length_renameAll]; exact hnl
      · rw [length_renameAll]; exact hnr
      · rw [keysList_renameAll, keysList_renameAll]
        rintro k hk hk2
        obtain ⟨x, hx, rfl⟩ := List.mem_map.mp hk
        obtain ⟨y, hy, heq⟩ := List.mem_map.mp hk2
        by_cases hx0 : x = old <;> by_cases hy0 : y = old
        · rw [hx0] at hx
          rw [hy0] at hy
          exact hd old hx hy
        · rw [if_pos hx0, if_neg hy0] at heq
          rw [heq] at hy
          exact hnw.2 hy
        · rw [if_neg hx0, if_pos hy0] at heq
          rw [← heq] at hx
          exact hnw.1 hx
        · rw [if_neg hx0, if_neg hy0] at heq
          rw [heq] at hy
          exact hd x hx hy

theorem keys_renameAll (old nw : String) (c : Cycler V) (hold : old ∈ c.keysList) :
    (renameAll old nw c).keys = insert nw (c.keys.erase old) := by
  rw [Cycler.keys, keysList_renameAll, Cycler.keys]
  ext k
  simp only [List.mem_toFinset, List.mem_map, Finset.mem_insert, Finset.mem_erase]
  constructor
  · rintro ⟨x, hx, rfl⟩
    by_cases h : x = old
    · rw [if_pos h]
      exact Or.inl rfl
    · rw [if_neg h]
      exact Or.inr ⟨h, hx⟩
  · rintro (rfl | ⟨hne, hk⟩)
    · exact ⟨old, hold, if_pos rfl⟩
    · exact ⟨k, hk, if_neg hne⟩

theorem rget_renameRec_self (old nw : String) :
    ∀ r : Record V, nw ∉ r.map Prod.fst → rget (renameRec old nw r) nw = rget r old := by
  intro r
  induction r with
  | nil => intro _; rfl
  | cons p t ih =>
      intro hnw
      simp only [List.map_cons, List.mem_cons] at hnw
      push_neg at hnw
      by_cases hpo : p.1 = old
      · simp [renameRec, rget, List.find?_cons, hpo]
      · have h1 : (p.1 == nw) = false := by simpa using fun hc => hnw.1 hc.symm
        have h2 : (p.1 == old) = false := by simpa using hpo
        simp only [renameRec, List.map_cons, if_neg hpo, rget, List.find?_cons, h1, h2,
          cond_false]
        exact ih hnw.2

theorem rget_renameRec_other (old nw k : String) (hk1 : k ≠ old) (hk2 : k ≠ nw) :
    ∀ r : Record V, rget (renameRec old nw r) k = rget r k := by
  intro r
  induction r with
  | nil => rfl
  | cons p t ih =>
      by_cases hpo : p.1 = old
      · have h1 : (nw == k) = false := by simpa using fun hc => hk2 hc.symm
        have h2 : (p.1 == k) = false := by
          rw [hpo]
          simpa using fun hc => hk1 hc.symm
        simp only [renameRec, List.map_cons, if_pos hpo, rget, List.find?_cons, h1, h2,
          cond_false]
        exact ih
      · simp only [renameRec, List.map_cons, if_neg hpo, rget, List.find?_cons]
        cases hc : (p.1 == k) with
        | true => rfl
        | false => exact ih

theorem change_key_noop (c : Cycler V) (k : String) : change_key c k k = Except.ok c := by
  cases c <;> simp [change_key]

theorem change_key_exists (c : Cycler V) (old nw : String) (h1 : old ≠ nw)
    (h2 : nw ∈ c.keys) :
    change_key c old nw = Except.error CyclerError.keyAlreadyExists := by
  cases c <;> simp [change_key, h1, h2]

theorem change_key_notfound (c : Cycler V) (old nw : String) (h1 : old ≠ nw)
    (h2 : nw ∉ c.keys) (h3 : old ∉ c.keys) :
    change_key c old nw = Except.error CyclerError.keyNotFound := by
  cases c <;> simp [change_key, h1, h2, h3]

theorem change_key_rename : ∀ c : Cycler V, ∀ old nw : String, c.wf → old ≠ nw →
    nw ∉ c.keys → old ∈ c.keys → change_key c old nw = Except.ok (renameAll old nw c) := by
  intro c
  induction c with
  | leaf lab vals =>
      intro old nw _ hne hnw hold
      rw [keys_leaf, Finset.mem_singleton] at hold
      simp [change_key, hne, hnw, keys_leaf, renameAll, hold.symm, Finset.mem_singleton,
        Ne.symm hne]
  | comp op l r ihl ihr =>
      intro old nw hwf hne hnw hold
      obtain ⟨hl, hr, _, _, hd⟩ := hwf
      have hnwl : nw ∉ l.keys := fun hc => hnw (by rw [keys_comp]; exact Finset.mem_union_left _ hc)
      have hnwr : nw ∉ r.keys := fun hc => hnw (by rw [keys_comp]; exact Finset.mem_union_right _ hc)
      by_cases hro : old ∈ r.keys
      · have hlo : old ∉ l.keysList := fun hc => hd old hc ((mem_keys_iff r old).mp hro)
        have := ihr old nw hr hne hnwr hro
        simp only [change_key, if_neg hne, if_neg (not_not_intro hold), if_pos hro, this,
          if_neg (fun hc : nw ∈ (Cycler.comp op l r).keys => hnw hc)]
        rw [renameAll, renameAll_id old nw l hlo]
      · have hlo : old ∈ l.keys := by
          rw [keys_comp, Finset.mem_union] at hold
          rcases hold with h | h
          · exact h
          · exact absurd h hro
        have hrl : old ∉ r.keysList := fun hc => hro ((mem_keys_iff r old).mpr hc)
        have := ihl old nw hl hne hnwl hlo
        simp only [change_key, if_neg hne, if_neg (not_not_intro hold), if_neg hro, this,
          if_neg (fun hc : nw ∈ (Cycler.comp op l r).keys => hnw hc)]
        rw [renameAll, renameAll_id old nw r hrl]

/-! Bridges between `Finset` key sets and key lists. -/

theorem inter_empty_iff (a b : Cycler V) :
    a.keys ∩ b.keys = ∅ ↔ ∀ k ∈ a.keysList, k ∉ b.keysList := by
  rw [Finset.eq_empty_iff_forall_not_mem]
  constructor
  · intro h k hk hk2
    exact h k (Finset.mem_inter.mpr ⟨(mem_keys_iff a k).mpr hk, (mem_keys_iff b k).mpr hk2⟩)
  · intro h k hk
    rw [Finset.mem_inter] at hk
    exact h k ((mem_keys_iff a k).mp hk.1) ((mem_keys_iff b k).mp hk.2)

/-! The claim theorems. -/

/-- C1 (counterexample): the claim asserts that `combinePairwise` of any two
equal-length, key-disjoint cyclers yields a cycler of the common length, but
two zero-length cyclers (equal lengths, disjoint keys) cannot be pairwise
composed at all: the construction peek raises `StopIteration`. -/
theorem c1_counterexample :
    combinePairwise (Cycler.leaf "a" ([] : List Nat)) (Cycler.leaf "b" ([] : List Nat))
      = Except.error CyclerError.stopIteration := rfl

/-- C1 (amended): for cyclers `A`, `B` with disjoint key sets and equal
nonzero lengths, `combinePairwise A B` succeeds; the result has the common
length, and its record sequence is exactly the merge of the zip of `A`'s
and `B`'s record sequences: the `i`-th record is the union of `A`'s `i`-th
record and `B`'s `i`-th record (union of key sets, left-or-right lookup). -/
theorem c1_pairwise_zip [Inhabited V] (A B : Cycler V) (hA : A.wf) (hB : B.wf)
    (hdisj : A.keys ∩ B.keys = ∅) (hlen : A.length = B.length) (hnz : A.length ≠ 0) :
    ∃ c, combinePairwise A B = Except.ok c ∧
      c.length = A.length ∧ c.records.length = A.length ∧
      c.records = List.zipWith mergeRec A.records B.records ∧
      (∀ (i : Nat) (a b : Record V), A.records[i]? = some a → B.records[i]? = some b →
        c.records[i]? = some (mergeRec a b) ∧
        recKeys (mergeRec a b) = recKeys a ∪ recKeys b ∧
        ∀ k, rget (mergeRec a b) k = optOr (rget a k) (rget b k)) := by
  have hd := (inter_empty_iff A B).mp hdisj
  have hmk := mkComposite_ok Op.zip A B hA hB hnz (by rw [← hlen]; exact hnz) hd
  refine ⟨Cycler.comp Op.zip A B, ?_, ?_, ?_, rfl, ?_⟩
  · unfold combinePairwise
    rw [if_pos hlen, hmk]
  · simp only [Cycler.length, ← hlen, Nat.min_self]
  · rw [records_length]
    simp only [Cycler.length, ← hlen, Nat.min_self]
  · intro i a b ha hb
    exact ⟨getq_zipWith ha hb, recKeys_mergeRec a b, fun k => rget_append a b k⟩

theorem c1_pairwise_zip_witness :
    ((Cycler.leaf "a" [(1 : Nat), 2]).wf ∧ (Cycler.leaf "b" [(3 : Nat), 4]).wf ∧
      (Cycler.leaf "a" [(1 : Nat), 2]).keys ∩ (Cycler.leaf "b" [(3 : Nat), 4]).keys = ∅ ∧
      (Cycler.leaf "a" [(1 : Nat), 2]).length = (Cycler.leaf "b" [(3 : Nat), 4]).length ∧
      (Cycler.leaf "a" [(1 : Nat), 2]).length ≠ 0) ∧
    (∃ c, combinePairwise (Cycler.leaf "a" [(1 : Nat), 2]) (Cycler.leaf "b" [(3 : Nat), 4])
        = Except.ok c ∧
      c.length = (Cycler.leaf "a" [(1 : Nat), 2]).length ∧
      c.records.length = (Cycler.leaf "a" [(1 : Nat), 2]).length ∧
      c.records = List.zipWith mergeRec (Cycler.leaf "a" [(1 : Nat), 2]).records
        (Cycler.leaf "b" [(3 : Nat), 4]).records ∧
      (∀ (i : Nat) (a b : Record Nat),
        (Cycler.leaf "a" [(1 : Nat), 2]).records[i]? = some a →
        (Cycler.leaf "b" [(3 : Nat), 4]).records[i]? = some b →
        c.records[i]? = some (mergeRec a b) ∧
        recKeys (mergeRec a b) = recKeys a ∪ recKeys b ∧
        ∀ k, rget (mergeRec a b) k = optOr (rget a k) (rget b k))) :=
  ⟨⟨by decide, by decide, by decide, by decide, by decide⟩,
    c1_pairwise_zip (Cycler.leaf "a" [(1 : Nat), 2]) (Cycler.leaf "b" [(3 : Nat), 4])
      (by decide) (by decide) (by decide) (by decide) (by decide)⟩

/-- C2 (counterexample): the claim asserts
`length(combineProduct(A,B)) = length(A) * length(B)` for any key-disjoint
`A`, `B`, but two zero-length cyclers cannot be product-composed at all:
the construction peek raises `StopIteration`, so no result (of length 0)
exists. -/
theorem c2_counterexample :
    combineProduct (Cycler.leaf "a" ([] : List Nat)) (Cycler.leaf "b" ([] : List Nat))
      = Except.error CyclerError.stopIteration := rfl

/-- C2 (amended): for cyclers `A`, `B` with disjoint key sets and nonzero
lengths, `combineProduct A B` succeeds, has length `length A * length B`,
iterates right-fastest (the record at position `i * length B + j` is the
merge of `A`'s `i`-th and `B`'s `j`-th record), and each of its first
`length B` records agrees with `A`'s first record on all of `A`'s keys. -/
theorem c2_product [Inhabited V] (A B : Cycler V) (hA : A.wf) (hB : B.wf)
    (hdisj : A.keys ∩ B.keys = ∅) (hnzA : A.length ≠ 0) (hnzB : B.length ≠ 0) :
    ∃ c, combineProduct A B = Except.ok c ∧
      c.length = A.length * B.length ∧ c.records.length = A.length * B.length ∧
      (∀ (i j : Nat) (a b : Record V), j < B.length →
        A.records[i]? = some a → B.records[j]? = some b →
        c.records[i * B.length + j]? = some (mergeRec a b)) ∧
      (∀ (j : Nat) (rc a0 : Record V), j < B.length → c.records[j]? = some rc →
        A.records[0]? = some a0 → ∀ k ∈ A.keys, rget rc k = rget a0 k) := by
  have hd := (inter_empty_iff A B).mp hdisj
  have hmk := mkComposite_ok Op.product A B hA hB hnzA hnzB hd
  have hrecs : (Cycler.comp Op.product A B).records
      = List.flatten (A.records.map (fun a => B.records.map (fun b => mergeRec a b))) := rfl
  have hidx : ∀ (i j : Nat) (a b : Record V), j < B.length →
      A.records[i]? = some a → B.records[j]? = some b →
      (Cycler.comp Op.product A B).records[i * B.length + j]? = some (mergeRec a b) := by
    intro i j a b hj ha hb
    rw [hrecs]
    have hblk : (A.records.map (fun a => B.records.map (fun b => mergeRec a b)))[i]?
        = some (B.records.map (fun b => mergeRec a b)) := by
      rw [List.getElem?_map, ha]
      rfl
    have hjlen : j < B.records.length := by rw [records_length]; exact hj
    have := getq_flatten_uniform (A.records.map (fun a => B.records.map (fun b => mergeRec a b)))
      B.records.length (by
        intro x hx
        obtain ⟨a2, _, rfl⟩ := List.mem_map.mp hx
        exact List.length_map _ _) i j hjlen hblk
    rw [records_length B] at this
    rw [this, List.getElem?_map, hb]
    rfl
  refine ⟨Cycler.comp Op.product A B, hmk, rfl, by rw [records_length]; rfl, hidx, ?_⟩
  intro j rc a0 hj hrc ha0
  obtain ⟨b, hb⟩ : ∃ b, B.records[j]? = some b := by
    have hjlen : j < B.records.length := by rw [records_length]; exact hj
    exact ⟨B.records[j], List.getElem?_eq_getElem hjlen⟩
  have h0 := hidx 0 j a0 b hj ha0 hb
  rw [Nat.zero_mul, Nat.zero_add] at h0
  have hrc2 : rc = mergeRec a0 b := Option.some.inj (hrc.symm.trans h0)
  intro k hk
  have hka0 : k ∈ recKeys a0 := by
    rw [recKeys_records A hA a0 (mem_of_getq ha0)]
    exact hk
  rw [hrc2, mergeRec, rget_append, rget_eq_some_dget a0 k hka0]
  rfl

theorem c2_product_witness :
    ((Cycler.leaf "a" [(1 : Nat), 2]).wf ∧ (Cycler.leaf "b" [(3 : Nat), 4, 5]).wf ∧
      (Cycler.leaf "a" [(1 : Nat), 2]).keys ∩ (Cycler.leaf "b" [(3 : Nat), 4, 5]).keys = ∅ ∧
      (Cycler.leaf "a" [(1 : Nat), 2]).length ≠ 0 ∧
      (Cycler.leaf "b" [(3 : Nat), 4, 5]).length ≠ 0) ∧
    (∃ c, combineProduct (Cycler.leaf "a" [(1 : Nat), 2]) (Cycler.leaf "b" [(3 : Nat), 4, 5])
        = Except.ok c ∧
      c.length = (Cycler.leaf "a" [(1 : Nat), 2]).length
        * (Cycler.leaf "b" [(3 : Nat), 4, 5]).length ∧
      c.records.length = (Cycler.leaf "a" [(1 : Nat), 2]).length
        * (Cycler.leaf "b" [(3 : Nat), 4, 5]).length ∧
      (∀ (i j : Nat) (a b : Record Nat), j < (Cycler.leaf "b" [(3 : Nat), 4, 5]).length →
        (Cycler.leaf "a" [(1 : Nat), 2]).records[i]? = some a →
        (Cycler.leaf "b" [(3 : Nat), 4, 5]).records[j]? = some b →
        c.records[i * (Cycler.leaf "b" [(3 : Nat), 4, 5]).length + j]? = some (mergeRec a b)) ∧
      (∀ (j : Nat) (rc a0 : Record Nat), j < (Cycler.leaf "b" [(3 : Nat), 4, 5]).length →
        c.records[j]? = some rc →
        (Cycler.leaf "a" [(1 : Nat), 2]).records[0]? = some a0 →
        ∀ k ∈ (Cycler.leaf "a" [(1 : Nat), 2]).keys, rget rc k = rget a0 k)) :=
  ⟨⟨by decide, by decide, by decide, by decide, by decide⟩,
    c2_product (Cycler.leaf "a" [(1 : Nat), 2]) (Cycler.leaf "b" [(3 : Nat), 4, 5])
      (by decide) (by decide) (by decide) (by decide) (by decide)⟩

/-- C3 (counterexample): the claim asserts that every composition of two
cyclers with intersecting key sets raises the key-overlap error, but
`__add__` checks lengths first: pairwise composition of `cycler('a',[0])`
and `cycler('a',[0,1])` (overlapping keys, unequal lengths) raises the
length-mismatch error instead. -/
theorem c3_counterexample :
    combinePairwise (Cycler.leaf "a" [(0 : Nat)]) (Cycler.leaf "a" [(0 : Nat), 1])
      = Except.error (CyclerError.lengthMismatch 1 2) := rfl

/-- C3 (amended): for nonempty cyclers whose key sets intersect, product
composition and both augmenting variants raise the key-overlap error at
construction; pairwise composition raises the key-overlap error when the
lengths agree, and the length-mismatch error (still at construction,
before any record is produced) when they differ. -/
theorem c3_overlap_errors (A B : Cycler V) (hA : A.wf) (hB : B.wf)
    (hnzA : A.length ≠ 0) (hnzB : B.length ≠ 0) (hover : (A.keys ∩ B.keys).Nonempty) :
    combineProduct A B = Except.error CyclerError.keyOverlap ∧
    augmentPairwise A B = Except.error CyclerError.keyOverlap ∧
    augmentProduct A B = Except.error CyclerError.keyOverlap ∧
    (A.length = B.length → combinePairwise A B = Except.error CyclerError.keyOverlap) ∧
    (A.length ≠ B.length →
      combinePairwise A B = Except.error (CyclerError.lengthMismatch A.length B.length)) := by
  obtain ⟨k, hk⟩ := hover
  rw [Finset.mem_inter] at hk
  have hk1 := (mem_keys_iff A k).mp hk.1
  have hk2 := (mem_keys_iff B k).mp hk.2
  have hpo := _process_keys_overlap A B hA hB hnzA hnzB k hk1 hk2
  refine ⟨mkComposite_overlap Op.product A B hA hB hnzA hnzB k hk1 hk2, ?_, ?_, ?_, ?_⟩
  · simp [augmentPairwise, hpo]
  · simp [augmentProduct, hpo]
  · intro he
    unfold combinePairwise
    rw [if_pos he]
    exact mkComposite_overlap Op.zip A B hA hB hnzA hnzB k hk1 hk2
  · intro hne
    unfold combinePairwise
    rw [if_neg hne]

theorem c3_overlap_errors_witness :
    ((Cycler.leaf "a" [(1 : Nat)]).wf ∧ (Cycler.leaf "a" [(2 : Nat)]).wf ∧
      (Cycler.leaf "a" [(1 : Nat)]).length ≠ 0 ∧ (Cycler.leaf "a" [(2 : Nat)]).length ≠ 0 ∧
      ((Cycler.leaf "a" [(1 : Nat)]).keys ∩ (Cycler.leaf "a" [(2 : Nat)]).keys).Nonempty) ∧
    (combineProduct (Cycler.leaf "a" [(1 : Nat)]) (Cycler.leaf "a" [(2 : Nat)])
        = Except.error CyclerError.keyOverlap ∧
      augmentPairwise (Cycler.leaf "a" [(1 : Nat)]) (Cycler.leaf "a" [(2 : Nat)])
        = Except.error CyclerError.keyOverlap ∧
      augmentProduct (Cycler.leaf "a" [(1 : Nat)]) (Cycler.leaf "a" [(2 : Nat)])
        = Except.error CyclerError.keyOverlap ∧
      ((Cycler.leaf "a" [(1 : Nat)]).length = (Cycler.leaf "a" [(2 : Nat)]).length →
        combinePairwise (Cycler.leaf "a" [(1 : Nat)]) (Cycler.leaf "a" [(2 : Nat)])
          = Except.error CyclerError.keyOverlap) ∧
      ((Cycler.leaf "a" [(1 : Nat)]).length ≠ (Cycler.leaf "a" [(2 : Nat)]).length →
        combinePairwise (Cycler.leaf "a" [(1 : Nat)]) (Cycler.leaf "a" [(2 : Nat)])
          = Except.error (CyclerError.lengthMismatch (Cycler.leaf "a" [(1 : Nat)]).length
              (Cycler.leaf "a" [(2 : Nat)]).length))) :=
  ⟨⟨by decide, by decide, by decide, by decide, by decide⟩,
    c3_overlap_errors (Cycler.leaf "a" [(1 : Nat)]) (Cycler.leaf "a" [(2 : Nat)])
      (by decide) (by decide) (by decide) (by decide) (by decide)⟩

/-- C4 (counterexample): the claim asserts that the augmenting pairwise
variant also fails on unequal lengths, but `__iadd__` performs no length
check: augmenting `cycler('a',[0])` with the two-element `cycler('b',[0,1])`
succeeds. -/
theorem c4_counterexample :
    augmentPairwise (Cycler.leaf "a" [(0 : Nat)]) (Cycler.leaf "b" [(0 : Nat), 1])
      = Except.ok (Cycler.comp Op.zip (Cycler.leaf "a" [(0 : Nat)])
          (Cycler.leaf "b" [(0 : Nat), 1])) := rfl

/-- C4 (amended): `combinePairwise` (`__add__`) on cyclers of unequal
lengths fails with the length-mismatch error at construction time; the
augmenting variant (`__iadd__`) performs no length check and, for
key-disjoint nonempty operands, succeeds with a zip composite whose length
is the minimum of the two lengths. -/
theorem c4_length_mismatch (A B : Cycler V) (hA : A.wf) (hB : B.wf)
    (hnzA : A.length ≠ 0) (hnzB : B.length ≠ 0) (hdisj : A.keys ∩ B.keys = ∅)
    (hne : A.length ≠ B.length) :
    combinePairwise A B = Except.error (CyclerError.lengthMismatch A.length B.length) ∧
    augmentPairwise A B = Except.ok (Cycler.comp Op.zip A B) ∧
    (Cycler.comp Op.zip A B).length = min A.length B.length := by
  refine ⟨?_, ?_, rfl⟩
  · unfold combinePairwise
    rw [if_neg hne]
  · have hd := (inter_empty_iff A B).mp hdisj
    have hpk := _process_keys_ok A B hA hB hnzA hnzB hd
    have hrB : B.reinit = Except.ok () := (reinit_ok_iff B).mpr ⟨hB, hnzB⟩
    simp [augmentPairwise, hpk, hrB]

theorem c4_length_mismatch_witness :
    ((Cycler.leaf "a" [(0 : Nat)]).wf ∧ (Cycler.leaf "b" [(0 : Nat), 1]).wf ∧
      (Cycler.leaf "a" [(0 : Nat)]).length ≠ 0 ∧ (Cycler.leaf "b" [(0 : Nat), 1]).length ≠ 0 ∧
      (Cycler.leaf "a" [(0 : Nat)]).keys ∩ (Cycler.leaf "b" [(0 : Nat), 1]).keys = ∅ ∧
      (Cycler.leaf "a" [(0 : Nat)]).length ≠ (Cycler.leaf "b" [(0 : Nat), 1]).length) ∧
    (combinePairwise (Cycler.leaf "a" [(0 : Nat)]) (Cycler.leaf "b" [(0 : Nat), 1])
        = Except.error (CyclerError.lengthMismatch (Cycler.leaf "a" [(0 : Nat)]).length
            (Cycler.leaf "b" [(0 : Nat), 1]).length) ∧
      augmentPairwise (Cycler.leaf "a" [(0 : Nat)]) (Cycler.leaf "b" [(0 : Nat), 1])
        = Except.ok (Cycler.comp Op.zip (Cycler.leaf "a" [(0 : Nat)])
            (Cycler.leaf "b" [(0 : Nat), 1])) ∧
      (Cycler.comp Op.zip (Cycler.leaf "a" [(0 : Nat)])
          (Cycler.leaf "b" [(0 : Nat), 1])).length
        = min (Cycler.leaf "a" [(0 : Nat)]).length (Cycler.leaf "b" [(0 : Nat), 1]).length) :=
  ⟨⟨by decide, by decide, by decide, by decide, by decide, by decide⟩,
    c4_length_mismatch (Cycler.leaf "a" [(0 : Nat)]) (Cycler.leaf "b" [(0 : Nat), 1])
      (by decide) (by decide) (by decide) (by decide) (by decide) (by decide)⟩

/-- C10: two zero-length cyclers with disjoint key sets can never be
composed: pairwise, product and both augmenting variants all fail, because
the construction-time key peek (`next(iter(...))` in `_process_keys`)
finds no record to inspect. -/
theorem c10_empty_compose (A B : Cycler V) (hA : A.length = 0) (hB : B.length = 0)
    (hdisj : A.keys ∩ B.keys = ∅) :
    (∀ c, combinePairwise A B ≠ Except.ok c) ∧
    (∀ c, combineProduct A B ≠ Except.ok c) ∧
    (∀ c, augmentPairwise A B ≠ Except.ok c) ∧
    (∀ c, augmentProduct A B ≠ Except.ok c) := by
  have hpk : _process_keys A B = Except.error CyclerError.stopIteration :=
    _process_keys_emptyL A B hA
  have hmk : ∀ (op : Op) (c : Cycler V), mkComposite op A B ≠ Except.ok c := by
    intro op c hc
    obtain ⟨_, hwf, _⟩ := mkComposite_ok_inv op A B hc
    exact hwf.2.2.1 hA
  refine ⟨?_, ?_, ?_, ?_⟩
  · intro c hc
    unfold combinePairwise at hc
    rw [if_pos (by rw [hA, hB])] at hc
    exact hmk Op.zip c hc
  · intro c hc
    exact hmk Op.product c hc
  · intro c hc
    simp [augmentPairwise, hpk] at hc
  · intro c hc
    simp [augmentProduct, hpk] at hc

theorem c10_empty_compose_witness :
    ((Cycler.leaf "a" ([] : List Nat)).length = 0 ∧
      (Cycler.leaf "b" ([] : List Nat)).length = 0 ∧
      (Cycler.leaf "a" ([] : List Nat)).keys ∩ (Cycler.leaf "b" ([] : List Nat)).keys = ∅) ∧
    combinePairwise (Cycler.leaf "a" ([] : List Nat)) (Cycler.leaf "b" ([] : List Nat))
      ≠ Except.ok (Cycler.leaf "a" ([] : List Nat)) ∧
    combineProduct (Cycler.leaf "a" ([] : List Nat)) (Cycler.leaf "b" ([] : List Nat))
      ≠ Except.ok (Cycler.leaf "a" ([] : List Nat)) ∧
    augmentPairwise (Cycler.leaf "a" ([] : List Nat)) (Cycler.leaf "b" ([] : List Nat))
      ≠ Except.ok (Cycler.leaf "a" ([] : List Nat)) ∧
    augmentProduct (Cycler.leaf "a" ([] : List Nat)) (Cycler.leaf "b" ([] : List Nat))
      ≠ Except.ok (Cycler.leaf "a" ([] : List Nat)) :=
  ⟨⟨by decide, by decide, by decide⟩,
    (c10_empty_compose (Cycler.leaf "a" ([] : List Nat)) (Cycler.leaf "b" ([] : List Nat))
      (by decide) (by decide) (by decide)).1 _,
    (c10_empty_compose (Cycler.leaf "a" ([] : List Nat)) (Cycler.leaf "b" ([] : List Nat))
      (by decide) (by decide) (by decide)).2.1 _,
    (c10_empty_compose (Cycler.leaf "a" ([] : List Nat)) (Cycler.leaf "b" ([] : List Nat))
      (by decide) (by decide) (by decide)).2.2.1 _,
    (c10_empty_compose (Cycler.leaf "a" ([] : List Nat)) (Cycler.leaf "b" ([] : List Nat))
      (by decide) (by decide) (by decide)).2.2.2 _⟩

/-- C5: `simplify(C)` is equal to `C` under the library's `__eq__`
(equal length, identical key set, pairwise dict-equal records in
iteration order), for every constructible cycler `C`. -/
theorem c5_simplify_eq [Inhabited V] (C : Cycler V) (h : C.wf) :
    ∃ s, simplify C = Except.ok s ∧ cyclerEq s C := by
  have hflen : ∀ k ∈ C.keysList, (by_key C k).length = C.length :=
    fun k _ => by_key_length C k
  have hn : C.length ≠ 0 ∨ C.keysList.length = 1 := by
    by_cases hc0 : C.length = 0
    · right
      cases C with
      | leaf lab vals => simp [Cycler.keysList]
      | comp op l r => exact absurd hc0 (comp_length_ne_zero op l r h.2.2.1 h.2.2.2.1)
    · exact Or.inl hc0
  obtain ⟨d, hred, hwfd, hlend, hkeysd, hby⟩ :=
    reduceAdd_spec C.keysList (fun k => by_key C k) C.length
      (keysList_ne_nil C) (keysList_nodup C h) hflen hn
  refine ⟨d, hred, ?_⟩
  apply cyclerEq_of_by_key d C hlend
  · show d.keysList.toFinset = C.keys
    rw [hkeysd]
    rfl
  · exact recKeys_records d hwfd
  · exact recKeys_records C h
  · intro k hk
    have hk2 := (mem_keys_iff d k).mp hk
    rw [hkeysd] at hk2
    exact hby k hk2

theorem c5_simplify_eq_witness :
    (Cycler.comp Op.product (Cycler.leaf "a" [(1 : Nat), 2]) (Cycler.leaf "b" [(5 : Nat)])).wf ∧
    (∃ s, simplify (Cycler.comp Op.product (Cycler.leaf "a" [(1 : Nat), 2])
        (Cycler.leaf "b" [(5 : Nat)])) = Except.ok s ∧
      cyclerEq s (Cycler.comp Op.product (Cycler.leaf "a" [(1 : Nat), 2])
        (Cycler.leaf "b" [(5 : Nat)]))) :=
  ⟨by decide,
    c5_simplify_eq (Cycler.comp Op.product (Cycler.leaf "a" [(1 : Nat), 2])
      (Cycler.leaf "b" [(5 : Nat)])) (by decide)⟩

/-- C6: `concat(A,B)` with exactly equal key sets succeeds with length
`length A + length B` and per-key value lists that are the concatenation
of the operands' per-key value lists; with differing key sets it fails
with the key-mismatch error carrying the intersection and symmetric
difference of the two key sets. -/
theorem c6_concat [Inhabited V] (A B : Cycler V) (hA : A.wf) (hB : B.wf) :
    (A.keys = B.keys →
      ∃ c, concat A B = Except.ok c ∧ c.length = A.length + B.length ∧
        ∀ k ∈ A.keys, by_key c k = by_key A k ++ by_key B k) ∧
    (A.keys ≠ B.keys →
      concat A B = Except.error (CyclerError.keyMismatch (A.keys ∩ B.keys)
        ((A.keys \ B.keys) ∪ (B.keys \ A.keys)))) := by
  constructor
  · intro hkeys
    have hflen : ∀ k ∈ A.keysList,
        (by_key A k ++ by_key B k).length = A.length + B.length := by
      intro k _
      rw [List.length_append, by_key_length, by_key_length]
    have hn : A.length + B.length ≠ 0 ∨ A.keysList.length = 1 := by
      by_cases hz : A.length + B.length = 0
      · right
        have hA0 : A.length = 0 := by omega
        cases A with
        | leaf lab vals => simp [Cycler.keysList]
        | comp op l r => exact absurd hA0 (comp_length_ne_zero op l r hA.2.2.1 hA.2.2.2.1)
      · exact Or.inl hz
    obtain ⟨d, hred, hwfd, hlend, hkeysd, hby⟩ :=
      reduceAdd_spec A.keysList (fun k => by_key A k ++ by_key B k) (A.length + B.length)
        (keysList_ne_nil A) (keysList_nodup A hA) hflen hn
    refine ⟨d, ?_, hlend, ?_⟩
    · unfold concat
      rw [if_pos hkeys]
      exact hred
    · intro k hk
      exact hby k ((mem_keys_iff A k).mp hk)
  · intro hkeys
    unfold concat
    rw [if_neg hkeys]

theorem c6_concat_witness :
    ((Cycler.leaf "a" [(1 : Nat), 2]).wf ∧ (Cycler.leaf "a" [(3 : Nat)]).wf) ∧
    (((Cycler.leaf "a" [(1 : Nat), 2]).keys = (Cycler.leaf "a" [(3 : Nat)]).keys →
      ∃ c, concat (Cycler.leaf "a" [(1 : Nat), 2]) (Cycler.leaf "a" [(3 : Nat)])
          = Except.ok c ∧
        c.length = (Cycler.leaf "a" [(1 : Nat), 2]).length
          + (Cycler.leaf "a" [(3 : Nat)]).length ∧
        ∀ k ∈ (Cycler.leaf "a" [(1 : Nat), 2]).keys,
          by_key c k = by_key (Cycler.leaf "a" [(1 : Nat), 2]) k
            ++ by_key (Cycler.leaf "a" [(3 : Nat)]) k) ∧
    ((Cycler.leaf "a" [(1 : Nat), 2]).keys ≠ (Cycler.leaf "a" [(3 : Nat)]).keys →
      concat (Cycler.leaf "a" [(1 : Nat), 2]) (Cycler.leaf "a" [(3 : Nat)])
        = Except.error (CyclerError.keyMismatch
            ((Cycler.leaf "a" [(1 : Nat), 2]).keys ∩ (Cycler.leaf "a" [(3 : Nat)]).keys)
            (((Cycler.leaf "a" [(1 : Nat), 2]).keys \ (Cycler.leaf "a" [(3 : Nat)]).keys)
              ∪ ((Cycler.leaf "a" [(3 : Nat)]).keys
                \ (Cycler.leaf "a" [(1 : Nat), 2]).keys))))) :=
  ⟨⟨by decide, by decide⟩,
    c6_concat (Cycler.leaf "a" [(1 : Nat), 2]) (Cycler.leaf "a" [(3 : Nat)])
      (by decide) (by decide)⟩

/-- C7 (counterexample): the claim asserts `repeat(C, 0)` has length 0 for
every cycler, but `C * 0` on a multi-key cycler rebuilds from zero-length
leaves via `reduce(add, ...)`, whose pairwise composition peeks an empty
record list and raises `StopIteration`; no zero-length result exists. -/
theorem c7_counterexample :
    repeatC (Cycler.comp Op.zip (Cycler.leaf "a" [(0 : Nat)]) (Cycler.leaf "b" [(1 : Nat)])) 0
      = Except.error CyclerError.stopIteration := rfl

/-- C7 (amended): for a constructible cycler `C` and `n ≥ 1` (or any `n`
when `C` has a single key): `repeat(C, n)` succeeds,
`byKey(repeat(C,n))[k]` is `byKey(C)[k]` repeated `n` times for every key
`k` of `C`, `repeat(C, 1)` equals `C` under the library equality, and
`repeat(C, 0)` (single-key case) has length 0; for a multi-key `C`,
`repeat(C, 0)` instead raises `StopIteration`. -/
theorem c7_repeat [Inhabited V] (C : Cycler V) (n : Nat) (h : C.wf)
    (hn : n ≠ 0 ∨ C.keysList.length = 1) :
    ∃ c, repeatC C n = Except.ok c ∧
      (∀ k ∈ C.keys, by_key c k = listRepeat (by_key C k) n) ∧
      (n = 1 → cyclerEq c C) ∧
      (n = 0 → c.length = 0) := by
  have hflen : ∀ k ∈ C.keysList, (listRepeat (by_key C k) n).length = n * C.length := by
    intro k _
    rw [listRepeat, List.length_flatten]
    simp [List.map_replicate, List.sum_replicate, by_key_length]
  have hn2 : n * C.length ≠ 0 ∨ C.keysList.length = 1 := by
    rcases hn with hnz | h1
    · by_cases hc0 : C.length = 0
      · right
        cases C with
        | leaf lab vals => simp [Cycler.keysList]
        | comp op l r => exact absurd hc0 (comp_length_ne_zero op l r h.2.2.1 h.2.2.2.1)
      · exact Or.inl (Nat.mul_ne_zero hnz hc0)
    · exact Or.inr h1
  obtain ⟨d, hred, hwfd, hlend, hkeysd, hby⟩ :=
    reduceAdd_spec C.keysList (fun k => listRepeat (by_key C k) n) (n * C.length)
      (keysList_ne_nil C) (keysList_nodup C h) hflen hn2
  refine ⟨d, hred, ?_, ?_, ?_⟩
  · intro k hk
    exact hby k ((mem_keys_iff C k).mp hk)
  · rintro rfl
    have hrep1 : ∀ l : List V, listRepeat l 1 = l := by
      intro l
      simp [listRepeat]
    apply cyclerEq_of_by_key d C (by rw [hlend, Nat.one_mul])
    · show d.keysList.toFinset = C.keys
      rw [hkeysd]
      rfl
    · exact recKeys_records d hwfd
    · exact recKeys_records C h
    · intro k hk
      have hk2 := (mem_keys_iff d k).mp hk
      rw [hkeysd] at hk2
      rw [hby k hk2, hrep1]
  · rintro rfl
    rw [hlend, Nat.zero_mul]

theorem c7_repeat_witness :
    ((Cycler.comp Op.zip (Cycler.leaf "a" [(1 : Nat)]) (Cycler.leaf "b" [(2 : Nat)])).wf ∧
      ((2 : Nat) ≠ 0 ∨ (Cycler.comp Op.zip (Cycler.leaf "a" [(1 : Nat)])
        (Cycler.leaf "b" [(2 : Nat)])).keysList.length = 1)) ∧
    (∃ c, repeatC (Cycler.comp Op.zip (Cycler.leaf "a" [(1 : Nat)])
        (Cycler.leaf "b" [(2 : Nat)])) 2 = Except.ok c ∧
      (∀ k ∈ (Cycler.comp Op.zip (Cycler.leaf "a" [(1 : Nat)])
          (Cycler.leaf "b" [(2 : Nat)])).keys,
        by_key c k = listRepeat (by_key (Cycler.comp Op.zip (Cycler.leaf "a" [(1 : Nat)])
          (Cycler.leaf "b" [(2 : Nat)])) k) 2) ∧
      ((2 : Nat) = 1 → cyclerEq c (Cycler.comp Op.zip (Cycler.leaf "a" [(1 : Nat)])
        (Cycler.leaf "b" [(2 : Nat)]))) ∧
      ((2 : Nat) = 0 → c.length = 0)) :=
  ⟨⟨by decide, by decide⟩,
    c7_repeat (Cycler.comp Op.zip (Cycler.leaf "a" [(1 : Nat)]) (Cycler.leaf "b" [(2 : Nat)]))
      2 (by decide) (by decide)⟩

/-- C8: `change_key(old, new)` is a no-op when `old = new` (even if `old`
is not a key); raises the key-already-exists error when `new` is already a
key; raises the key-not-found error when neither renaming applies and
`old` is absent; and otherwise renames `old` to `new` in the key set while
preserving every record's value across a full iteration: the values now
found under `new` are exactly those previously found under `old`, and all
other keys' values are unchanged. -/
theorem c8_change_key [Inhabited V] (C : Cycler V) (old nw : String) (h : C.wf) :
    (old = nw → change_key C old nw = Except.ok C) ∧
    (old ≠ nw → nw ∈ C.keys →
      change_key C old nw = Except.error CyclerError.keyAlreadyExists) ∧
    (old ≠ nw → nw ∉ C.keys → old ∉ C.keys →
      change_key C old nw = Except.error CyclerError.keyNotFound) ∧
    (old ≠ nw → nw ∉ C.keys → old ∈ C.keys →
      ∃ c, change_key C old nw = Except.ok c ∧
        c.keys = insert nw (C.keys.erase old) ∧
        c.length = C.length ∧
        by_key c nw = by_key C old ∧
        (∀ k ∈ C.keys, k ≠ old → by_key c k = by_key C k)) := by
  refine ⟨?_, ?_, ?_, ?_⟩
  · rintro rfl
    exact change_key_noop C old
  · intro h1 h2
    exact change_key_exists C old nw h1 h2
  · intro h1 h2 h3
    exact change_key_notfound C old nw h1 h2 h3
  · intro h1 h2 h3
    refine ⟨renameAll old nw C, change_key_rename C old nw h h1 h2 h3,
      keys_renameAll old nw C ((mem_keys_iff C old).mp h3), length_renameAll old nw C, ?_, ?_⟩
    · rw [by_key, by_key, records_renameAll, List.map_map]
      apply List.map_congr_left
      intro r hr
      have hnwr : nw ∉ r.map Prod.fst := by
        intro hc
        apply h2
        rw [← recKeys_records C h r hr]
        exact List.mem_toFinset.mpr hc
      show dget (renameRec old nw r) nw = dget r old
      unfold dget
      rw [rget_renameRec_self old nw r hnwr]
    · intro k hk hkne
      rw [by_key, by_key, records_renameAll, List.map_map]
      apply List.map_congr_left
      intro r _
      have hknw : k ≠ nw := fun hc => h2 (hc ▸ hk)
      show dget (renameRec old nw r) k = dget r k
      unfold dget
      rw [rget_renameRec_other old nw k hkne hknw r]

theorem c8_change_key_witness :
    (Cycler.comp Op.zip (Cycler.leaf "a" [(1 : Nat)]) (Cycler.leaf "b" [(2 : Nat)])).wf ∧
    (("a" = "c" → change_key (Cycler.comp Op.zip (Cycler.leaf "a" [(1 : Nat)])
        (Cycler.leaf "b" [(2 : Nat)])) "a" "c"
        = Except.ok (Cycler.comp Op.zip (Cycler.leaf "a" [(1 : Nat)])
            (Cycler.leaf "b" [(2 : Nat)]))) ∧
      ("a" ≠ "c" → "c" ∈ (Cycler.comp Op.zip (Cycler.leaf "a" [(1 : Nat)])
          (Cycler.leaf "b" [(2 : Nat)])).keys →
        change_key (Cycler.comp Op.zip (Cycler.leaf "a" [(1 : Nat)])
          (Cycler.leaf "b" [(2 : Nat)])) "a" "c"
          = Except.error CyclerError.keyAlreadyExists) ∧
      ("a" ≠ "c" → "c" ∉ (Cycler.comp Op.zip (Cycler.leaf "a" [(1 : Nat)])
          (Cycler.leaf "b" [(2 : Nat)])).keys →
        "a" ∉ (Cycler.comp Op.zip (Cycler.leaf "a" [(1 : Nat)])
          (Cycler.leaf "b" [(2 : Nat)])).keys →
        change_key (Cycler.comp Op.zip (Cycler.leaf "a" [(1 : Nat)])
          (Cycler.leaf "b" [(2 : Nat)])) "a" "c"
          = Except.error CyclerError.keyNotFound) ∧
      ("a" ≠ "c" → "c" ∉ (Cycler.comp Op.zip (Cycler.leaf "a" [(1 : Nat)])
          (Cycler.leaf "b" [(2 : Nat)])).keys →
        "a" ∈ (Cycler.comp Op.zip (Cycler.leaf "a" [(1 : Nat)])
          (Cycler.leaf "b" [(2 : Nat)])).keys →
        ∃ c, change_key (Cycler.comp Op.zip (Cycler.leaf "a" [(1 : Nat)])
            (Cycler.leaf "b" [(2 : Nat)])) "a" "c" = Except.ok c ∧
          c.keys = insert "c" ((Cycler.comp Op.zip (Cycler.leaf "a" [(1 : Nat)])
            (Cycler.leaf "b" [(2 : Nat)])).keys.erase "a") ∧
          c.length = (Cycler.comp Op.zip (Cycler.leaf "a" [(1 : Nat)])
            (Cycler.leaf "b" [(2 : Nat)])).length ∧
          by_key c "c" = by_key (Cycler.comp Op.zip (Cycler.leaf "a" [(1 : Nat)])
            (Cycler.leaf "b" [(2 : Nat)])) "a" ∧
          (∀ k ∈ (Cycler.comp Op.zip (Cycler.leaf "a" [(1 : Nat)])
              (Cycler.leaf "b" [(2 : Nat)])).keys, k ≠ "a" →
            by_key c k = by_key (Cycler.comp Op.zip (Cycler.leaf "a" [(1 : Nat)])
              (Cycler.leaf "b" [(2 : Nat)])) k))) :=
  ⟨by decide,
    c8_change_key (Cycler.comp Op.zip (Cycler.leaf "a" [(1 : Nat)])
      (Cycler.leaf "b" [(2 : Nat)])) "a" "c" (by decide)⟩

/-! Preservation of constructibility by every operation (for C9). -/

theorem wf_of_mkComposite {op : Op} {A B c : Cycler V}
    (h : mkComposite op A B = Except.ok c) : c.wf := by
  obtain ⟨rfl, hwf, _⟩ := mkComposite_ok_inv op A B h
  exact hwf

theorem wf_of_combinePairwise {A B c : Cycler V}
    (h : combinePairwise A B = Except.ok c) : c.wf := by
  unfold combinePairwise at h
  by_cases hl : A.length = B.length
  · rw [if_pos hl] at h
    exact wf_of_mkComposite h
  · rw [if_neg hl] at h
    cases h

theorem wf_of_augmentPairwise {A B c : Cycler V} (hA : A.wf)
    (h : augmentPairwise A B = Except.ok c) : c.wf := by
  cases hp : _process_keys A B with
  | error e => simp [augmentPairwise, hp] at h
  | ok ks =>
      cases hb : B.reinit with
      | error e => simp [augmentPairwise, hp, hb] at h
      | ok u =>
          cases u
          simp only [augmentPairwise, hp, hb, Except.ok.injEq] at h
          obtain ⟨hwB, hnB⟩ := (reinit_ok_iff B).mp hb
          obtain ⟨hnA, _, hd⟩ := _process_keys_ok_inv A B hA hwB hp
          rw [← h]
          exact ⟨hA, hwB, hnA, hnB, hd⟩

theorem wf_of_augmentProduct {A B c : Cycler V} (hA : A.wf)
    (h : augmentProduct A B = Except.ok c) : c.wf := by
  cases hp : _process_keys A B with
  | error e => simp [augmentProduct, hp] at h
  | ok ks =>
      cases hb : B.reinit with
      | error e => simp [augmentProduct, hp, hb] at h
      | ok u =>
          cases u
          simp only [augmentProduct, hp, hb, Except.ok.injEq] at h
          obtain ⟨hwB, hnB⟩ := (reinit_ok_iff B).mp hb
          obtain ⟨hnA, _, hd⟩ := _process_keys_ok_inv A B hA hwB hp
          rw [← h]
          exact ⟨hA, hwB, hnA, hnB, hd⟩

theorem wf_of_change_key {C c : Cycler V} {old nw : String} (h : C.wf)
    (hc : change_key C old nw = Except.ok c) : c.wf := by
  by_cases h1 : old = nw
  · subst h1
    rw [change_key_noop] at hc
    simp only [Except.ok.injEq] at hc
    rw [← hc]
    exact h
  · by_cases h2 : nw ∈ C.keys
    · rw [change_key_exists C old nw h1 h2] at hc
      cases hc
    · by_cases h3 : old ∈ C.keys
      · rw [change_key_rename C old nw h h1 h2 h3] at hc
        simp only [Except.ok.injEq] at hc
        rw [← hc]
        exact wf_renameAll old nw C h (fun hm => h2 ((mem_keys_iff C nw).mpr hm))
      · rw [change_key_notfound C old nw h1 h2 h3] at hc
        cases hc

theorem foldAdd_wf : ∀ (xs : List (Cycler V)) (acc : Cycler V), acc.wf →
    ∀ {d : Cycler V}, foldAdd acc xs = Except.ok d → d.wf := by
  intro xs
  induction xs with
  | nil =>
      intro acc hacc d h
      simp only [foldAdd, Except.ok.injEq] at h
      rw [← h]
      exact hacc
  | cons x t ih =>
      intro acc hacc d h
      cases hcp : combinePairwise acc x with
      | error e => simp [foldAdd, hcp] at h
      | ok acc2 =>
          simp only [foldAdd, hcp] at h
          exact ih acc2 (wf_of_combinePairwise hcp) h

theorem wf_of_reduceAdd_leaves [Inhabited V] {ks : List String} {f : String → List V}
    {d : Cycler V}
    (h : reduceAdd (ks.map (fun k => Cycler.leaf k (f k))) = Except.ok d) : d.wf := by
  cases ks with
  | nil => simp [reduceAdd] at h
  | cons k t =>
      simp only [List.map_cons, reduceAdd] at h
      exact foldAdd_wf _ (Cycler.leaf k (f k)) (show (Cycler.leaf k (f k)).wf from trivial) h

/-- C9: every record of a constructible cycler carries exactly the
cycler's key set, and constructibility (hence this invariant) is
preserved by every operation of the library that returns or mutates a
cycler: both compositions, both augmenting variants, `change_key`,
`concat`, `simplify` and integer repetition. -/
theorem c9_invariant [Inhabited V] :
    (∀ C : Cycler V, C.wf → ∀ r ∈ C.records, recKeys r = C.keys) ∧
    (∀ A B c : Cycler V, combinePairwise A B = Except.ok c → c.wf) ∧
    (∀ A B c : Cycler V, combineProduct A B = Except.ok c → c.wf) ∧
    (∀ A B c : Cycler V, A.wf → augmentPairwise A B = Except.ok c → c.wf) ∧
    (∀ A B c : Cycler V, A.wf → augmentProduct A B = Except.ok c → c.wf) ∧
    (∀ (C c : Cycler V) (old nw : String), C.wf → change_key C old nw = Except.ok c → c.wf) ∧
    (∀ A B c : Cycler V, concat A B = Except.ok c → c.wf) ∧
    (∀ C c : Cycler V, simplify C = Except.ok c → c.wf) ∧
    (∀ (C c : Cycler V) (n : Nat), repeatC C n = Except.ok c → c.wf) := by
  refine ⟨fun C h => recKeys_records C h,
    fun A B c h => wf_of_combinePairwise h,
    fun A B c h => wf_of_mkComposite h,
    fun A B c hA h => wf_of_augmentPairwise hA h,
    fun A B c hA h => wf_of_augmentProduct hA h,
    fun C c old nw hw h => wf_of_change_key hw h, ?_, ?_, ?_⟩
  · intro A B c h
    unfold concat at h
    by_cases hk : A.keys = B.keys
    · rw [if_pos hk] at h
      exact wf_of_reduceAdd_leaves h
    · rw [if_neg hk] at h
      cases h
  · intro C c h
    exact wf_of_reduceAdd_leaves h
  · intro C c n h
    exact wf_of_reduceAdd_leaves h

theorem c9_invariant_witness :
    ((Cycler.leaf "a" [(1 : Nat)]).wf ∧
      combinePairwise (Cycler.leaf "a" [(1 : Nat)]) (Cycler.leaf "b" [(2 : Nat)])
        = Except.ok (Cycler.comp Op.zip (Cycler.leaf "a" [(1 : Nat)])
            (Cycler.leaf "b" [(2 : Nat)]))) ∧
    (∀ r ∈ (Cycler.leaf "a" [(1 : Nat)]).records, recKeys r = (Cycler.leaf "a" [(1 : Nat)]).keys) ∧
    (Cycler.comp Op.zip (Cycler.leaf "a" [(1 : Nat)]) (Cycler.leaf "b" [(2 : Nat)])).wf :=
  ⟨⟨by decide, rfl⟩,
    c9_invariant.1 (Cycler.leaf "a" [(1 : Nat)]) (by decide),
    c9_invariant.2.1 (Cycler.leaf "a" [(1 : Nat)]) (Cycler.leaf "b" [(2 : Nat)])
      (Cycler.comp Op.zip (Cycler.leaf "a" [(1 : Nat)]) (Cycler.leaf "b" [(2 : Nat)]))
      rfl⟩

end CyclerSpec
